import Mathlib

/-!
# Load bot (`mycelo/loadbot/bot.go`)

A shallow embedding of `Start`, `runBot`, `waitFor` and the `nextTransfer`
closure of `mycelo/loadbot/bot.go`, followed by theorems about them.

Conventions of the embedding:

* Go `int` is 64 bits wide; `int`, `int64` and `time.Duration` are `Int` values
  reduced with `wrap64` after every arithmetic operation; `/` on them is
  truncated division and a zero divisor is a run-time panic.
* `float64` values are modelled exactly: a finite double is an integer
  numerator over a fixed power of two, and every conversion or product is
  rounded to 53 significant bits, ties to even.
* What the code observes from outside (the results of `ClientFactory()`, of
  `Send()`, of `rand.Intn`, the clock, which branch a `select` takes) is
  supplied by an environment record indexed by the call number.
* Time is a number of nanoseconds on one clock; readings of the clock
  (`time.Time`) are unbounded integers and `time.Until` is their difference.
* The worker loop `for { ... }` has no exit of its own, so a run of a worker is
  observed for a given number of iterations (`fuel`); a worker that has not
  returned by then is reported as still running.
* `errgroup` keeps the error of the task that returns first and cancels the
  context of the group at that instant; the other tasks end at their next
  suspension on the context, and `group.Wait()` returns the first error.
-/

namespace Loadbot

set_option maxRecDepth 100000

/-! ## Machine arithmetic -/

/-- Two's complement reduction of an integer to the `int64` range. -/
def wrap64 (x : Int) : Int := (x + 2 ^ 63) % 2 ^ 64 - 2 ^ 63

/-- Run-time panics the code can raise. -/
inductive Panic
  | divideByZero
  | indexOutOfRange
  | invalidIntn
deriving DecidableEq, Repr

/-- Equality of results is decidable. -/
instance instDecidableEqExcept {ε α : Type} [DecidableEq ε] [DecidableEq α] :
    DecidableEq (Except ε α)
  | .ok a, .ok b =>
    if h : a = b then isTrue (by rw [h]) else isFalse (fun h' => h (by injection h'))
  | .error a, .error b =>
    if h : a = b then isTrue (by rw [h]) else isFalse (fun h' => h (by injection h'))
  | .ok _, .error _ => isFalse (fun h => by cases h)
  | .error _, .ok _ => isFalse (fun h => by cases h)

/-- Go `a / b` on `int64`: panics on a zero divisor, truncates toward zero. -/
def goDiv (a b : Int) : Except Panic Int :=
  if b = 0 then .error .divideByZero else .ok (wrap64 (Int.tdiv a b))

/-- Bit length by repeated halving; the first argument bounds the recursion. -/
def bitLenAux : Nat → Nat → Nat
  | 0, _ => 0
  | fuel + 1, n => if n = 0 then 0 else bitLenAux fuel (n / 2) + 1

/-- Number of binary digits of `n` (`0` for `n = 0`). -/
def bitLen (n : Nat) : Nat := bitLenAux n n

/-- Round a natural number to 53 significant bits, to nearest, ties to even:
the significand rounding of IEEE 754 binary64. -/
def roundSig53 (a : Nat) : Nat :=
  let k := bitLen a - 53
  if k = 0 then a
  else
    let t := a / 2 ^ k
    let r := a % 2 ^ k
    let half := 2 ^ (k - 1)
    if r > half ∨ (r = half ∧ t % 2 = 1) then (t + 1) * 2 ^ k else t * 2 ^ k

/-- Conversion `float64(x)` of an `int`; the result is an integer-valued double. -/
def float64OfInt (x : Int) : Int := Int.sign x * (roundSig53 x.natAbs : Int)

/-- The constant `0.95` as a double is `mant095 / 2 ^ 53`
(bit pattern `0x3FEE666666666666`). -/
def mant095 : Nat := 8556839292003942

/-- Product `x * 0.95` of an integer-valued double with the constant, as a numerator
over `2 ^ 53`. -/
def mul095 (x : Int) : Int := Int.sign x * (roundSig53 (x.natAbs * mant095) : Int)

/-- Conversion `int(y)` of the double `num / 2 ^ 53`: truncation toward zero. -/
def truncFloat (num : Int) : Int := Int.tdiv num (2 ^ 53)

/-- The constant `time.Millisecond`, in nanoseconds. -/
def Millisecond : Int := 1000000

/-- The expression
`time.Duration(int(float64(len(cfg.Accounts)*1000/cfg.TransactionsPerSecond)*0.95)) * time.Millisecond`. -/
def computeDelay (len : Nat) (tps : Int) : Except Panic Int :=
  match goDiv (wrap64 ((len : Int) * 1000)) tps with
  | .error p => .error p
  | .ok q => .ok (wrap64 (wrap64 (truncFloat (mul095 (float64OfInt q))) * Millisecond))

/-! ## Data model -/

/-- The type `env.Account`: an address and a signing key. -/
structure Account where
  Address : Nat
  PrivateKey : Nat
deriving DecidableEq, Repr

/-- A Go `error` value: one produced by a collaborator, or one built by
`fmt.Errorf(msg + "%w", cause)`. -/
inductive GoError
  | plain (id : Nat)
  | errorf (msg : String) (cause : GoError)
deriving DecidableEq, Repr

/-- Handle of a client returned by the factory. -/
abbrev Client := Nat

/-- The type `LoadBotConfig`; `ClientFactory k` is what the `k`-th call (from 0) of the
factory returns. -/
structure LoadBotConfig where
  Accounts : List Account
  Amount : Int
  TransactionsPerSecond : Int
  ClientFactory : Nat → Except GoError Client

/-- Which case of the `select` in `waitFor` is taken: `ctx.Done()` with `ctx.Err() = err`
after `after` nanoseconds, or the timer, `extra` nanoseconds late. -/
inductive WaitChoice
  | done (err : GoError) (after : Nat)
  | timer (extra : Nat)
deriving DecidableEq, Repr

/-- The function `waitFor(ctx, waitTime)` entered at time `now`: the error returned and the
time of return. A timer of positive duration fires no earlier than that duration after it
was set; a timer of non-positive duration fires at once. -/
def waitFor (now : Int) (waitTime : Int) : WaitChoice → Option GoError × Int
  | .done err after => (some err, now + after)
  | .timer extra => (none, if 0 < waitTime then now + waitTime + extra else now)

/-- The call `rand.Intn(n)`: panics for `n ≤ 0`, otherwise reduces the raw draw into
`[0, n)`. -/
def randIntn (n : Nat) (raw : Nat) : Except Panic Nat :=
  if n = 0 then .error .invalidIntn else .ok (raw % n)

/-- The closure `nextTransfer` of `Start`, given the raw value of the random source. -/
def nextTransfer (cfg : LoadBotConfig) (raw : Nat) : Except Panic (Nat × Int) :=
  match randIntn cfg.Accounts.length raw with
  | .error p => .error p
  | .ok idx =>
    match cfg.Accounts[idx]? with
    | none => .error .indexOutOfRange
    | some acc => .ok (acc.Address, cfg.Amount)

/-! ## The worker loop -/

/-- What one worker observes: per loop iteration `k`, the raw random draw, the result of
`Send()`, the time until `Send()` has returned and the record is printed, the time
`WaitMined` blocks, and the branch taken by the pacing wait. -/
structure BotEnv where
  draw : Nat → Nat
  send : Nat → Except GoError Nat
  sendTime : Nat → Nat
  minedTime : Nat → Nat
  pace : Nat → WaitChoice

/-- The pacing part of one iteration: when `WaitMined` returned, the argument
`time.Until(nextSendTime)` of `waitFor`, and when `waitFor` returned. -/
structure Pacing where
  minedAt : Int
  waitTime : Int
  wokeAt : Int
deriving DecidableEq, Repr

/-- One pass through the loop body of `runBot` that reached `Send()`. -/
structure Iteration where
  txSentTime : Int
  client : Client
  sender : Nat
  recipient : Nat
  value : Int
  tx : Except GoError Nat
  pacing : Option Pacing

/-- How a worker stands at the end of the observation. -/
inductive BotResult
  | running
  | returned (err : GoError) (at_ : Int)
  | panicked (p : Panic)
deriving DecidableEq, Repr

/-- The function `runBot`: `fuel` bounds the number of loop iterations observed, `k` counts
the iterations done and `now` is the clock when the iteration starts. -/
def runBot (cfg : LoadBotConfig) (env : BotEnv) (acc : Account) (sleepTime : Int)
    (client : Client) : Nat → Nat → Int → BotResult × List Iteration
  | 0, _, _ => (.running, [])
  | fuel + 1, k, now =>
    let txSentTime := now
    match nextTransfer cfg (env.draw k) with
    | .error p => (.panicked p, [])
    | .ok (recipient, value) =>
      match env.send k with
      | .error err =>
        (.returned (.errorf "Error sending transaction: " err) (now + env.sendTime k),
          [⟨txSentTime, client, acc.Address, recipient, value, .error err, none⟩])
      | .ok tx =>
        let minedAt := now + env.sendTime k + env.minedTime k
        let nextSendTime := txSentTime + sleepTime
        let waitTime := nextSendTime - minedAt
        match waitFor minedAt waitTime (env.pace k) with
        | (some err, t) =>
          (.returned err t,
            [⟨txSentTime, client, acc.Address, recipient, value, .ok tx,
              some ⟨minedAt, waitTime, t⟩⟩])
        | (none, t) =>
          let rest := runBot cfg env acc sleepTime client fuel (k + 1) t
          (rest.1,
            ⟨txSentTime, client, acc.Address, recipient, value, .ok tx,
              some ⟨minedAt, waitTime, t⟩⟩ :: rest.2)

/-! ## The dispatcher -/

/-- What `Start` observes: its starting time, the branch taken by the stagger wait before
worker `i`, the environment of worker `i`, and how many loop iterations of each worker are
observed. -/
structure StartEnv where
  startTime : Int
  stagger : Nat → WaitChoice
  bot : Nat → BotEnv
  fuel : Nat

/-- The loop `for i := 0; i < clientCount; i++` of `Start`: `remaining` iterations are
left, `i` calls were made and `clients` holds their results. Returns the number of factory
calls made and the pool or the error. -/
def dialClients (factory : Nat → Except GoError Client) :
    Nat → Nat → List Client → Nat × Except GoError (List Client)
  | 0, i, clients => (i, .ok clients)
  | remaining + 1, i, clients =>
    match factory i with
    | .error err => (i + 1, .error err)
    | .ok client => dialClients factory remaining (i + 1) (clients ++ [client])

/-- A worker handed to `group.Go`. -/
structure Launch where
  index : Nat
  acc : Account
  slot : Nat
  client : Client
  sleepTime : Int
  at_ : Int
deriving DecidableEq, Repr

/-- Steps of the launch loop of `Start`. -/
inductive StartEvent
  | wait (waitTime : Int)
  | launch (l : Launch)
deriving DecidableEq, Repr

/-- How the launch loop of `Start` ends. -/
inductive LoopExit
  | completed
  | returned (err : GoError)
  | panicked (p : Panic)
deriving DecidableEq, Repr

/-- The loop `for i, acc := range cfg.Accounts` of `Start`, over the accounts left, with
`i` the index of the first of them and `now` the clock. -/
def launchAll (env : StartEnv) (clients : List Client) (clientCount : Nat)
    (startDelay delay : Int) : List Account → Nat → Int → LoopExit × List StartEvent
  | [], _, _ => (.completed, [])
  | acc :: rest, i, now =>
    if clientCount = 0 then (.panicked .divideByZero, [])
    else
      match clients[i % clientCount]? with
      | none => (.panicked .indexOutOfRange, [])
      | some client =>
        match waitFor now startDelay (env.stagger i) with
        | (some err, _) => (.returned err, [.wait startDelay])
        | (none, t) =>
          let more := launchAll env clients clientCount startDelay delay rest (i + 1) t
          (more.1,
            .wait startDelay :: .launch ⟨i, acc, i % clientCount, client, delay, t⟩ :: more.2)

/-- The workers launched, in launch order. -/
def launches : List StartEvent → List Launch
  | [] => []
  | .wait _ :: evs => launches evs
  | .launch l :: evs => l :: launches evs

/-- The task `runBot(ctx, acc, delay, client, nextTransfer)` given to `group.Go`. -/
def runLaunch (cfg : LoadBotConfig) (env : StartEnv) (l : Launch) :
    BotResult × List Iteration :=
  runBot cfg (env.bot l.index) l.acc l.sleepTime l.client env.fuel 0 l.at_

/-- The error `errgroup` keeps: that of the task that returned first (the earlier launched
one when two return at the same instant). -/
def firstReturned : List BotResult → Option (GoError × Int)
  | [] => none
  | .returned e t :: rs =>
    match firstReturned rs with
    | some (e2, t2) => if t ≤ t2 then some (e, t) else some (e2, t2)
    | none => some (e, t)
  | .running :: rs => firstReturned rs
  | .panicked _ :: rs => firstReturned rs

/-- The first panic among the tasks, if any. -/
def firstPanic : List BotResult → Option Panic
  | [] => none
  | .panicked p :: _ => some p
  | .running :: rs => firstPanic rs
  | .returned _ _ :: rs => firstPanic rs

/-- How a call of `Start` ends. -/
inductive Outcome
  | returned (err : Option GoError)
  | panicked (p : Panic)
  | waiting
deriving DecidableEq, Repr

/-- The instant up to which a task has been observed: the time at which it returned, else
the clock when the observation of its loop ended (the end of its last pacing wait, or its
launch time when no iteration was observed). -/
def observedUntil (l : Launch) (run : BotResult × List Iteration) : Int :=
  match run.1 with
  | .returned _ t => t
  | _ =>
    match run.2.getLast? with
    | none => l.at_
    | some it =>
      match it.pacing with
      | some p => p.wokeAt
      | none => it.txSentTime

/-- The call `group.Wait()`, over the tasks and the instant up to which each was observed.
The first task to return does so with an error (`runBot` returns no `nil`), and `errgroup`
then cancels the context of the group; the other tasks end at their next suspension on that
context (`Send()` with `transactor.Context = ctx`, `WaitMined(ctx)`, `waitFor(ctx, ...)`), so
`Wait` returns that first error. Which error is the first is settled once every task has
been observed up to the instant of that return; before that, and as long as no task has
returned, the call is waiting. A panic in a task ends the program. -/
def groupWait (tasks : List (BotResult × Int)) : Outcome :=
  match firstPanic (tasks.map Prod.fst) with
  | some p => .panicked p
  | none =>
    match firstReturned (tasks.map Prod.fst) with
    | none => if tasks.isEmpty then .returned none else .waiting
    | some (e, t) =>
      if tasks.all (fun x => decide (t ≤ x.2)) then .returned (some e) else .waiting

/-- A run of `Start`: how it ended, the number of factory calls, the pool built, the
steps of the launch loop and the tasks with their logs. The log of a task is what the task
does under its own environment, that is, as long as the context of the group is not
cancelled. -/
structure StartRun where
  outcome : Outcome
  dialed : Nat
  clients : List Client
  events : List StartEvent
  bots : List (BotResult × List Iteration)

/-- The function `Start`. -/
def Start (cfg : LoadBotConfig) (env : StartEnv) : StartRun :=
  let clientCount := if cfg.Accounts.length > 50 then 50 else cfg.Accounts.length
  match dialClients cfg.ClientFactory clientCount 0 [] with
  | (dialed, .error err) => ⟨.returned (some err), dialed, [], [], []⟩
  | (dialed, .ok clients) =>
    match computeDelay cfg.Accounts.length cfg.TransactionsPerSecond with
    | .error p => ⟨.panicked p, dialed, clients, [], []⟩
    | .ok delay =>
      match goDiv delay (cfg.Accounts.length : Int) with
      | .error p => ⟨.panicked p, dialed, clients, [], []⟩
      | .ok startDelay =>
        match launchAll env clients clientCount startDelay delay cfg.Accounts 0
            env.startTime with
        | (.panicked p, events) => ⟨.panicked p, dialed, clients, events, []⟩
        | (.returned err, events) =>
          ⟨.returned (some err), dialed, clients, events,
            (launches events).map (runLaunch cfg env)⟩
        | (.completed, events) =>
          let bots := (launches events).map (runLaunch cfg env)
          ⟨groupWait ((launches events).map (fun l =>
              ((runLaunch cfg env l).1, observedUntil l (runLaunch cfg env l)))),
            dialed, clients, events, bots⟩


/-! ## Sample inputs -/

/-- Five accounts. -/
def fiveAccounts : List Account := [⟨10, 20⟩, ⟨11, 21⟩, ⟨12, 22⟩, ⟨13, 23⟩, ⟨14, 24⟩]

/-- A worker environment: every `Send()` succeeds, takes 1 ns, inclusion takes 2 ns, timers
are on time. -/
def steadyBot : BotEnv :=
  { draw := fun k => k, send := fun k => .ok k, sendTime := fun _ => 1,
    minedTime := fun _ => 2, pace := fun _ => .timer 0 }

/-- A dispatcher environment: timers on time, steady workers, three iterations observed. -/
def steadyEnv : StartEnv :=
  { startTime := 0, stagger := fun _ => .timer 0, bot := fun _ => steadyBot, fuel := 3 }

/-- Five accounts and a factory whose third call fails. -/
def thirdDialFails : LoadBotConfig :=
  { Accounts := fiveAccounts, Amount := 1, TransactionsPerSecond := 10,
    ClientFactory := fun k => if k = 2 then .error (.plain 7) else .ok k }

/-- No account at all, rate 10. -/
def noAccounts : LoadBotConfig :=
  { Accounts := [], Amount := 1, TransactionsPerSecond := 10,
    ClientFactory := fun k => .ok k }

/-- Five accounts, amount 42. -/
def fiveConfig : LoadBotConfig :=
  { Accounts := fiveAccounts, Amount := 42, TransactionsPerSecond := 10,
    ClientFactory := fun k => .ok k }

/-- Two accounts, rate 10. -/
def twoConfig : LoadBotConfig :=
  { Accounts := [⟨10, 20⟩, ⟨11, 21⟩], Amount := 5, TransactionsPerSecond := 10,
    ClientFactory := fun k => .ok k }

/-- One account, rate 7. -/
def sevenConfig : LoadBotConfig :=
  { Accounts := [⟨10, 20⟩], Amount := 5, TransactionsPerSecond := 7,
    ClientFactory := fun k => .ok k }

/-- One account, rate 501. -/
def fastConfig : LoadBotConfig :=
  { Accounts := [⟨10, 20⟩], Amount := 5, TransactionsPerSecond := 501,
    ClientFactory := fun k => .ok k }

/-- One account, rate -1. -/
def negativeConfig : LoadBotConfig :=
  { Accounts := [⟨10, 20⟩], Amount := 5, TransactionsPerSecond := -1,
    ClientFactory := fun k => .ok k }

/-- A worker environment whose fifth `Send()` fails with error 9. -/
def fifthSendFails : BotEnv :=
  { draw := fun k => k, send := fun k => if k < 4 then .ok k else .error (.plain 9),
    sendTime := fun _ => 1, minedTime := fun _ => 2, pace := fun _ => .timer 0 }

/-- A dispatcher environment: timers on time, worker 0 fails at its fifth send, the other
workers are steady; six iterations observed. -/
def failingEnv : StartEnv :=
  { startTime := 0, stagger := fun _ => .timer 0,
    bot := fun i => if i = 0 then fifthSendFails else steadyBot, fuel := 6 }

/-- A worker environment whose first `Send()` fails with error 9. -/
def firstSendFails : BotEnv :=
  { draw := fun k => k, send := fun _ => .error (.plain 9), sendTime := fun _ => 1,
    minedTime := fun _ => 2, pace := fun _ => .timer 0 }

/-- A dispatcher environment: worker 0 fails at its first send, and the stagger wait before
worker 1 is ended by the context, with error 1. -/
def cancelledEnv : StartEnv :=
  { startTime := 0, stagger := fun i => if i = 0 then .timer 0 else .done (.plain 1) 2,
    bot := fun _ => firstSendFails, fuel := 6 }

/-- The number 9708812671 of accounts, rate 1: the least account count at which the delay
overflows for this rate. -/
def manyConfig : LoadBotConfig :=
  { Accounts := List.replicate 9708812671 ⟨10, 20⟩, Amount := 5, TransactionsPerSecond := 1,
    ClientFactory := fun k => .ok k }

/-! ## Arithmetic lemmas -/

theorem wrap64_of_range (x : Int) (h1 : -(2 ^ 63) ≤ x) (h2 : x < 2 ^ 63) : wrap64 x = x := by
  unfold wrap64
  omega

theorem bitLenAux_spec : ∀ (fuel n : Nat), n ≤ fuel →
    n < 2 ^ bitLenAux fuel n ∧ (n ≠ 0 → 2 ^ (bitLenAux fuel n - 1) ≤ n)
  | 0, n, h => by
    have : n = 0 := by omega
    subst this
    simp [bitLenAux]
  | fuel + 1, n, h => by
    unfold bitLenAux
    by_cases hn : n = 0
    · simp [hn]
    · simp only [hn, if_false]
      have ih := bitLenAux_spec fuel (n / 2) (by omega)
      obtain ⟨ih1, ih2⟩ := ih
      constructor
      · rw [pow_succ]; omega
      · intro _
        simp only [Nat.add_sub_cancel]
        by_cases h2 : n / 2 = 0
        · have : bitLenAux fuel (n / 2) = 0 := by
            rw [h2]; cases fuel <;> simp [bitLenAux]
          rw [this]; simp; omega
        · have := ih2 h2
          obtain ⟨m, hm⟩ : ∃ m, bitLenAux fuel (n / 2) = m + 1 := by
            cases hb : bitLenAux fuel (n / 2) with
            | zero => rw [hb] at ih1; simp at ih1; omega
            | succ m => exact ⟨m, rfl⟩
          rw [hm] at this ⊢
          simp only [Nat.add_sub_cancel] at this
          rw [pow_succ]; omega

theorem bitLen_lt (n : Nat) : n < 2 ^ bitLen n := (bitLenAux_spec n n le_rfl).1

theorem bitLen_le (n : Nat) (h : n ≠ 0) : 2 ^ (bitLen n - 1) ≤ n := (bitLenAux_spec n n le_rfl).2 h


theorem roundSig53_small (a : Nat) (h : a < 2 ^ 53) : roundSig53 a = a := by
  unfold roundSig53
  have hk : bitLen a - 53 = 0 := by
    by_cases ha : a = 0
    · subst ha; simp [bitLen, bitLenAux]
    · have h1 := bitLen_le a ha
      have h2 : 2 ^ (bitLen a - 1) < 2 ^ 53 := lt_of_le_of_lt h1 h
      have h3 := (Nat.pow_lt_pow_iff_right (by norm_num : 1 < 2)).1 h2
      omega
  simp [hk]

theorem roundSig53_mul095 (q : Nat) (hq : q < 2 ^ 48) :
    roundSig53 (q * mant095) / 2 ^ 53 = q * 19 / 20 := by
  by_cases hq1 : q ≤ 1
  · interval_cases q
    · rw [roundSig53_small] <;> norm_num [mant095]
    · rw [roundSig53_small] <;> norm_num [mant095]
  · have ha0 : q * mant095 ≠ 0 := by simp [mant095]; omega
    have hlt := bitLen_lt (q * mant095)
    have hle := bitLen_le (q * mant095) ha0
    have hbig : 2 ^ 53 < 2 ^ bitLen (q * mant095) := by
      refine lt_of_le_of_lt ?_ hlt
      simp only [mant095]; omega
    have hL := (Nat.pow_lt_pow_iff_right (by norm_num : 1 < 2)).1 hbig
    obtain ⟨k, hk⟩ : ∃ k, bitLen (q * mant095) = k + 1 + 53 := ⟨bitLen (q * mant095) - 54, by omega⟩
    have hk49 : k + 1 < 49 := by
      have h1 : 2 ^ (k + 1 + 52) < 2 ^ (48 + 53) := by
        have : q * mant095 < 2 ^ 48 * 2 ^ 53 := by
          simp only [mant095]; omega
        rw [← pow_add] at this
        refine lt_of_le_of_lt ?_ this
        rw [hk] at hle
        simpa using hle
      have := (Nat.pow_lt_pow_iff_right (by norm_num : 1 < 2)).1 h1
      omega
    unfold roundSig53
    simp only [hk, Nat.add_sub_cancel, Nat.succ_ne_zero, if_false]
    rw [hk] at hlt hle
    have hk1 : k + 1 + 53 - 1 = k + 1 + 52 := by omega
    rw [hk1] at hle
    have hP : 2 ^ (k + 1) = 2 * 2 ^ k := by rw [pow_succ]; ring
    have hle2 : 2 ^ (k + 1) * 2 ^ 52 ≤ q * mant095 := by rw [← pow_add]; exact hle
    have hlt2 : q * mant095 < 2 ^ (k + 1) * 2 ^ 53 := by rw [← pow_add]; exact hlt
    have hdm := Nat.div_add_mod (q * mant095) (2 ^ (k + 1))
    have hr := Nat.mod_lt (q * mant095) (by positivity : 2 ^ (k + 1) > 0)
    generalize hH : 2 ^ k = H at *
    generalize hPP : 2 ^ (k + 1) = P at *
    generalize ht : q * mant095 / P = t at *
    generalize hrr : q * mant095 % P = r at *
    have hX : (t + 1) * P = t * P + P := by ring
    have hdm2 : t * P + r = q * mant095 := by rw [← hdm]; ring
    simp only [mant095] at hle2 hlt2 hdm2
    rw [hX]
    by_cases h20 : q % 20 = 0
    · -- the exact product is just below a representable integer: rounding goes up to it
      obtain ⟨j, rfl⟩ : ∃ j, q = 20 * j := ⟨q / 20, by omega⟩
      have hPj : 19 * j ≤ P := by omega
      have hQ : P * 2 ^ (53 - (k + 1)) = 2 ^ 53 := by
        rw [← hPP, ← pow_add]; congr 1; omega
      generalize 2 ^ (53 - (k + 1)) = Q at hQ
      have hT : (19 * j * Q) * P = t * P + r + 8 * j := by
        have : (19 * j * Q) * P = 19 * j * (P * Q) := by ring
        rw [this, hQ]; omega
      have ht1 : 19 * j * Q = t + 1 := by
        by_contra hne
        rcases Nat.lt_or_gt_of_ne hne with hlt' | hgt'
        · have : (19 * j * Q) * P ≤ t * P := Nat.mul_le_mul_right P (by omega)
          omega
        · have : (t + 2) * P ≤ (19 * j * Q) * P := Nat.mul_le_mul_right P (by omega)
          have h2 : (t + 2) * P = t * P + 2 * P := by ring
          omega
      rw [ht1] at hT
      have hr8 : r + 8 * j = P := by
        have h2 : (t + 1) * P = t * P + P := by ring
        omega
      have hup : r > H ∨ r = H ∧ t % 2 = 1 := Or.inl (by omega)
      rw [if_pos hup]
      have h2 : (t + 1) * P = t * P + P := by ring
      have h3 : t * P + P = 19 * j * 2 ^ 53 := by
        rw [← h2, ← ht1, ← hQ]; ring
      rw [h3]
      omega
    · have hw := Nat.div_add_mod (q * 19) 20
      have hrho : 1 ≤ q * 19 % 20 := by omega
      have hrho2 : q * 19 % 20 < 20 := Nat.mod_lt _ (by norm_num)
      generalize q * 19 / 20 = w at *
      generalize q * 19 % 20 = rho at *
      generalize t * P = X at *
      have hq' : q < 281474976710656 := by simpa using hq
      split_ifs with hup
      · have hrH : H ≤ r := by omega
        have lo : 9007199254740992 * w ≤ X + P := by linarith
        have hi : X + P < 9007199254740992 * (w + 1) := by linarith
        omega
      · have hrH : r ≤ H := by omega
        have lo : 9007199254740992 * w ≤ X := by linarith
        have hi : X < 9007199254740992 * (w + 1) := by linarith
        omega

theorem scale095_natCast (qn : Nat) (h : qn < 2 ^ 48) :
    truncFloat (mul095 (float64OfInt (qn : Int))) = ((qn * 19 / 20 : Nat) : Int) := by
  have h53 : qn < 2 ^ 53 := lt_of_lt_of_le h (by norm_num)
  rcases Nat.eq_zero_or_pos qn with h0 | hpos
  · subst h0
    simp [float64OfInt, mul095, truncFloat, roundSig53_small]
  · have hs : Int.sign (qn : Int) = 1 := Int.sign_eq_one_of_pos (by exact_mod_cast hpos)
    have hf : float64OfInt (qn : Int) = (qn : Int) := by
      simp [float64OfInt, hs, roundSig53_small qn h53]
    rw [hf]
    unfold mul095 truncFloat
    rw [hs, one_mul, Int.natAbs_ofNat]
    rw [Int.tdiv_eq_ediv (by positivity) (by positivity)]
    rw [← roundSig53_mul095 qn h]
    norm_cast

theorem computeDelay_eq (N : Nat) (R : Int) (hN : N < 2 ^ 32) (hR : 1 ≤ R) :
    computeDelay N R = .ok ((N : Int) * 1000 / R * 19 / 20 * 1000000) := by
  have hN' : (N : Int) < 4294967296 := by exact_mod_cast hN
  have hw : wrap64 ((N : Int) * 1000) = (N : Int) * 1000 := wrap64_of_range _ (by omega) (by omega)
  have hq0 : 0 ≤ (N : Int) * 1000 / R := Int.ediv_nonneg (by omega) (by omega)
  have hqle : (N : Int) * 1000 / R ≤ (N : Int) * 1000 :=
    Int.ediv_le_self _ (by omega)
  obtain ⟨qn, hqn⟩ := Int.eq_ofNat_of_zero_le hq0
  have hqn' : qn < 2 ^ 48 := by
    have : (qn : Int) < 2 ^ 48 := by rw [← hqn]; omega
    exact_mod_cast this
  unfold computeDelay goDiv
  rw [if_neg (by omega), hw, Int.tdiv_eq_ediv (by omega) (by omega)]
  simp only []
  have hb : (qn : Int) < 4294967296000 := by rw [← hqn]; omega
  rw [hqn, wrap64_of_range (qn : Int) (by omega) (by omega), scale095_natCast qn hqn']
  have hc : ((qn * 19 / 20 : Nat) : Int) = (qn : Int) * 19 / 20 := by omega
  rw [hc]
  rw [wrap64_of_range ((qn : Int) * 19 / 20) (by omega) (by omega)]
  unfold Millisecond
  rw [wrap64_of_range _ (by omega) (by omega)]


/-! ## Lemmas on the dispatcher -/

theorem dialClients_fail (factory : Nat → Except GoError Client) (e : GoError) :
    ∀ (m n i : Nat) (cl : List Client), m < n →
      (∀ j, j < m → ∃ c, factory (i + j) = .ok c) → factory (i + m) = .error e →
      dialClients factory n i cl = (i + m + 1, .error e)
  | 0, n + 1, i, cl, _, _, hfail => by
    simp only [Nat.add_zero] at hfail
    simp [dialClients, hfail]
  | m + 1, n + 1, i, cl, hmn, hok, hfail => by
    obtain ⟨c, hc⟩ := hok 0 (by omega)
    simp only [Nat.add_zero] at hc
    simp only [dialClients, hc]
    have ih := dialClients_fail factory e m n (i + 1) (cl ++ [c]) (by omega)
      (fun j hj => by
        obtain ⟨c', hc'⟩ := hok (j + 1) (by omega)
        exact ⟨c', by rw [← hc']; congr 1; omega⟩)
      (by rw [← hfail]; congr 1; omega)
    rw [ih]
    congr 1
    omega

theorem dialClients_ok (factory : Nat → Except GoError Client) :
    ∀ (n i : Nat) (cl : List Client), (∀ j, j < n → ∃ c, factory (i + j) = .ok c) →
      ∃ made : List Client, dialClients factory n i cl = (i + n, .ok (cl ++ made)) ∧
        made.length = n ∧
        ∀ j, j < n → ∃ c, made[j]? = some c ∧ factory (i + j) = .ok c
  | 0, i, cl, _ => ⟨[], by simp [dialClients]⟩
  | n + 1, i, cl, hok => by
    obtain ⟨c, hc⟩ := hok 0 (by omega)
    simp only [Nat.add_zero] at hc
    obtain ⟨made, h1, h2, h3⟩ := dialClients_ok factory n (i + 1) (cl ++ [c])
      (fun j hj => by
        obtain ⟨c', hc'⟩ := hok (j + 1) (by omega)
        exact ⟨c', by rw [← hc']; congr 1; omega⟩)
    refine ⟨c :: made, ?_, ?_, ?_⟩
    · simp only [dialClients, hc, h1, List.append_assoc, List.singleton_append]
      congr 1
      omega
    · simp [h2]
    · intro j hj
      cases j with
      | zero => exact ⟨c, by simp, by simpa using hc⟩
      | succ j =>
        obtain ⟨c', hc1, hc2⟩ := h3 j (by omega)
        exact ⟨c', by simpa using hc1, by rw [← hc2]; congr 1; omega⟩

/-- The number of clients `Start` asks for. -/
theorem clientCount_eq (n : Nat) : (if n > 50 then 50 else n) = min n 50 := by
  split <;> omega


theorem Start_of_ok (cfg : LoadBotConfig) (env : StartEnv) (n : Nat) (pool : List Client)
    (delay sd : Int)
    (hd : dialClients cfg.ClientFactory (min cfg.Accounts.length 50) 0 [] = (n, .ok pool))
    (hdelay : computeDelay cfg.Accounts.length cfg.TransactionsPerSecond = .ok delay)
    (hsd : goDiv delay cfg.Accounts.length = .ok sd) :
    (Start cfg env).events =
      (launchAll env pool (min cfg.Accounts.length 50) sd delay cfg.Accounts 0 env.startTime).2 ∧
    (Start cfg env).dialed = n ∧ (Start cfg env).clients = pool := by
  unfold Start
  simp only [clientCount_eq, hd, hdelay, hsd]
  split <;> simp_all

/-- One step of the launch loop, when the client exists and the timer fires. -/
theorem launchAll_cons_timer (env : StartEnv) (clients : List Client) (cc : Nat) (sd d : Int)
    (acc : Account) (rest : List Account) (i : Nat) (now : Int) (client : Client) (extra : Nat)
    (hcc : cc ≠ 0) (hcl : clients[i % cc]? = some client) (hst : env.stagger i = .timer extra) :
    launchAll env clients cc sd d (acc :: rest) i now =
      ((launchAll env clients cc sd d rest (i + 1)
          (if 0 < sd then now + sd + extra else now)).1,
        .wait sd :: .launch ⟨i, acc, i % cc, client, d,
            if 0 < sd then now + sd + extra else now⟩ ::
          (launchAll env clients cc sd d rest (i + 1)
            (if 0 < sd then now + sd + extra else now)).2) := by
  rw [launchAll]
  simp only [hcc, if_false, hcl, hst, waitFor]

/-- Every step of the launch loop that is a wait asks for the start delay. -/
theorem launchAll_waits (env : StartEnv) (clients : List Client) (cc : Nat) (sd d : Int) :
    ∀ (accs : List Account) (i : Nat) (now : Int) (w : Int),
      StartEvent.wait w ∈ (launchAll env clients cc sd d accs i now).2 → w = sd
  | [], i, now, w, h => by simp [launchAll] at h
  | acc :: rest, i, now, w, h => by
    rw [launchAll] at h
    by_cases hcc : cc = 0
    · simp [hcc] at h
    · simp only [hcc, if_false] at h
      cases hcl : clients[i % cc]? with
      | none => simp [hcl] at h
      | some client =>
        simp only [hcl] at h
        cases hst : env.stagger i with
        | done err after =>
          simp only [hst, waitFor] at h
          simpa using h
        | timer extra =>
          simp only [hst, waitFor] at h
          simp only [List.mem_cons] at h
          rcases h with h | h | h
          · injection h
          · cases h
          · exact launchAll_waits env clients cc sd d rest (i + 1) _ w h

/-- What holds of every worker the launch loop hands to `group.Go`. -/
theorem launchAll_launches (env : StartEnv) (clients : List Client) (cc : Nat) (sd d : Int) :
    ∀ (accs : List Account) (i : Nat) (now : Int) (l : Launch),
      l ∈ launches (launchAll env clients cc sd d accs i now).2 →
        i ≤ l.index ∧ l.index < i + accs.length ∧ accs[l.index - i]? = some l.acc ∧
        l.slot = l.index % cc ∧ clients[l.slot]? = some l.client ∧ l.sleepTime = d ∧
        now ≤ l.at_ ∧ (0 ≤ sd → now + ((l.index : Int) - i + 1) * sd ≤ l.at_)
  | [], i, now, l, h => by simp [launchAll, launches] at h
  | acc :: rest, i, now, l, h => by
    rw [launchAll] at h
    by_cases hcc : cc = 0
    · simp [hcc, launches] at h
    · simp only [hcc, if_false] at h
      cases hcl : clients[i % cc]? with
      | none => simp [hcl, launches] at h
      | some client =>
        simp only [hcl] at h
        cases hst : env.stagger i with
        | done err after =>
          simp [hst, waitFor, launches] at h
        | timer extra =>
          simp only [hst, waitFor, launches, List.mem_cons] at h
          have ht : now ≤ (if 0 < sd then now + sd + (extra : Int) else now) := by
            split <;> omega
          have ht2 : 0 ≤ sd → now + sd ≤ (if 0 < sd then now + sd + (extra : Int) else now) := by
            intro h0
            split <;> omega
          rcases h with h | h
          · subst h
            refine ⟨le_rfl, by simp, by simp, rfl, hcl, rfl, ht, ?_⟩
            intro h0
            have := ht2 h0
            simp only [sub_self, zero_add, one_mul]
            exact this
          · obtain ⟨h1, h2, h3, h4, h5, h6, h7, h8⟩ :=
              launchAll_launches env clients cc sd d rest (i + 1) _ l h
            refine ⟨by omega, by simp only [List.length_cons]; omega, ?_, h4, h5, h6,
              le_trans ht h7, ?_⟩
            · have : l.index - i = (l.index - (i + 1)) + 1 := by omega
              rw [this, List.getElem?_cons_succ]
              exact h3
            · intro h0
              have a := h8 h0
              have b := ht2 h0
              push_cast at a
              linarith

/-- With a pool of `cc > 0` clients and no cancelled stagger wait the launch loop completes
and launches one worker per account, in account order. -/
theorem launchAll_complete (env : StartEnv) (clients : List Client) (cc : Nat) (sd d : Int)
    (hcc : cc ≠ 0) (hlen : clients.length = cc)
    (hst : ∀ i, ∃ extra, env.stagger i = .timer extra) :
    ∀ (accs : List Account) (i : Nat) (now : Int),
      (launchAll env clients cc sd d accs i now).1 = .completed ∧
        (launches (launchAll env clients cc sd d accs i now).2).map (fun l => l.index) =
          List.range' i accs.length
  | [], i, now => by simp [launchAll, launches]
  | acc :: rest, i, now => by
    have hlt : i % cc < clients.length := by
      rw [hlen]; exact Nat.mod_lt _ (Nat.pos_of_ne_zero hcc)
    obtain ⟨extra, hex⟩ := hst i
    rw [launchAll_cons_timer env clients cc sd d acc rest i now _ extra hcc
      (List.getElem?_eq_getElem hlt) hex]
    obtain ⟨ih1, ih2⟩ := launchAll_complete env clients cc sd d hcc hlen hst rest (i + 1)
      (if 0 < sd then now + sd + extra else now)
    refine ⟨ih1, ?_⟩
    simp only [launches, List.map_cons, ih2, List.length_cons, List.range'_succ]

/-- With timers that fire on time and a start delay that is not negative, worker `j` of the
loop is launched `j + 1` start delays after the loop was entered. -/
theorem launchAll_on_time (env : StartEnv) (clients : List Client) (cc : Nat) (sd d : Int)
    (hsd : 0 ≤ sd) (hst : ∀ i, env.stagger i = .timer 0) :
    ∀ (accs : List Account) (i : Nat) (now : Int) (l : Launch),
      l ∈ launches (launchAll env clients cc sd d accs i now).2 →
        l.at_ = now + ((l.index : Int) - i + 1) * sd
  | [], i, now, l, h => by simp [launchAll, launches] at h
  | acc :: rest, i, now, l, h => by
    rw [launchAll] at h
    by_cases hcc : cc = 0
    · simp [hcc, launches] at h
    · simp only [hcc, if_false] at h
      cases hcl : clients[i % cc]? with
      | none => simp [hcl, launches] at h
      | some client =>
        have ht : (if 0 < sd then now + sd + ((0 : Nat) : Int) else now) = now + sd := by
          split <;> omega
        simp only [hcl, hst i, waitFor, launches, List.mem_cons, ht] at h
        rcases h with h | h
        · subst h
          simp
        · have a := launchAll_on_time env clients cc sd d hsd hst rest (i + 1) _ l h
          rw [a]
          push_cast
          ring

/-- Workers are launched in the order of their index, at times that do not decrease. -/
theorem launchAll_sorted (env : StartEnv) (clients : List Client) (cc : Nat) (sd d : Int) :
    ∀ (accs : List Account) (i : Nat) (now : Int),
      (launches (launchAll env clients cc sd d accs i now).2).Pairwise
        (fun a b => a.index < b.index ∧ a.at_ ≤ b.at_)
  | [], i, now => by simp [launchAll, launches]
  | acc :: rest, i, now => by
    rw [launchAll]
    by_cases hcc : cc = 0
    · simp [hcc, launches]
    · simp only [hcc, if_false]
      cases hcl : clients[i % cc]? with
      | none => simp [launches]
      | some client =>
        cases hst : env.stagger i with
        | done err after => simp [waitFor, launches]
        | timer extra =>
          simp only [waitFor, launches, List.pairwise_cons]
          refine ⟨?_, launchAll_sorted env clients cc sd d rest (i + 1) _⟩
          intro l hl
          obtain ⟨h1, -, -, -, -, -, h7, -⟩ :=
            launchAll_launches env clients cc sd d rest (i + 1) _ l hl
          exact ⟨by omega, h7⟩

/-- A rate different from zero lets the delay be computed. -/
theorem computeDelay_ok_of_ne (len : Nat) (R : Int) (hR : R ≠ 0) :
    ∃ d, computeDelay len R = .ok d := by
  unfold computeDelay goDiv
  rw [if_neg hR]
  exact ⟨_, rfl⟩

/-- A rate of zero makes the pacing computation panic. -/
theorem computeDelay_zero (len : Nat) : computeDelay len 0 = .error .divideByZero := by
  unfold computeDelay goDiv
  rw [if_pos rfl]

/-- Once the pool is built, a run of `Start` either panics in the pacing computation
before the launch loop, or goes through the launch loop. -/
theorem Start_after_dial (cfg : LoadBotConfig) (env : StartEnv) (n : Nat) (pool : List Client)
    (hd : dialClients cfg.ClientFactory (min cfg.Accounts.length 50) 0 [] = (n, .ok pool)) :
    (Start cfg env).dialed = n ∧ (Start cfg env).clients = pool ∧
      (((Start cfg env).events = [] ∧ (Start cfg env).bots = [] ∧
          (Start cfg env).outcome = .panicked .divideByZero) ∨
        ∃ delay sd, computeDelay cfg.Accounts.length cfg.TransactionsPerSecond = .ok delay ∧
          goDiv delay cfg.Accounts.length = .ok sd ∧
          (Start cfg env).events = (launchAll env pool (min cfg.Accounts.length 50) sd delay
            cfg.Accounts 0 env.startTime).2) := by
  cases hdelay : computeDelay cfg.Accounts.length cfg.TransactionsPerSecond with
  | error p =>
    have hp : p = .divideByZero := by
      by_cases hR : cfg.TransactionsPerSecond = 0
      · rw [hR, computeDelay_zero] at hdelay
        injection hdelay with hdelay
        exact hdelay.symm
      · obtain ⟨d, hd'⟩ := computeDelay_ok_of_ne cfg.Accounts.length _ hR
        rw [hd'] at hdelay
        cases hdelay
    subst hp
    unfold Start
    simp only [clientCount_eq, hd, hdelay]
    simp
  | ok delay =>
    cases hsd : goDiv delay cfg.Accounts.length with
    | error p =>
      have hp : p = .divideByZero := by
        unfold goDiv at hsd
        split at hsd
        · injection hsd with hsd; exact hsd.symm
        · cases hsd
      subst hp
      unfold Start
      simp only [clientCount_eq, hd, hdelay, hsd]
      simp
    | ok sd =>
      obtain ⟨h1, h2, h3⟩ := Start_of_ok cfg env n pool delay sd hd hdelay hsd
      exact ⟨h2, h3, Or.inr ⟨delay, sd, rfl, hsd, h1⟩⟩


/-- The steps of the launch loop in a run of `Start` whose pacing constants are known: none
when the pool could not be built, else those of the loop over the pool. -/
theorem Start_events_cases (cfg : LoadBotConfig) (env : StartEnv) (delay sd : Int)
    (hdelay : computeDelay cfg.Accounts.length cfg.TransactionsPerSecond = .ok delay)
    (hsd : goDiv delay cfg.Accounts.length = .ok sd) :
    (Start cfg env).events = [] ∨
      ∃ n pool, dialClients cfg.ClientFactory (min cfg.Accounts.length 50) 0 [] = (n, .ok pool) ∧
        (Start cfg env).events = (launchAll env pool (min cfg.Accounts.length 50) sd delay
          cfg.Accounts 0 env.startTime).2 := by
  rcases hdial : dialClients cfg.ClientFactory (min cfg.Accounts.length 50) 0 [] with ⟨n, r⟩
  cases r with
  | error err =>
    left
    unfold Start
    simp only [clientCount_eq, hdial]
  | ok pool =>
    right
    exact ⟨n, pool, rfl, (Start_of_ok cfg env n pool delay sd hdial hdelay hsd).1⟩

/-- Every task of a run of `Start` is `runBot` on a worker launched by the loop. -/
theorem Start_bots (cfg : LoadBotConfig) (env : StartEnv) :
    ∀ b ∈ (Start cfg env).bots,
      ∃ l ∈ launches (Start cfg env).events, b = runLaunch cfg env l := by
  intro b hb
  unfold Start at hb ⊢
  simp only [clientCount_eq] at hb ⊢
  rcases hdial : dialClients cfg.ClientFactory (min cfg.Accounts.length 50) 0 [] with ⟨n, r⟩
  rw [hdial] at hb
  cases r with
  | error err => simp at hb
  | ok pool =>
    simp only at hb ⊢
    cases hdelay : computeDelay cfg.Accounts.length cfg.TransactionsPerSecond with
    | error p => rw [hdelay] at hb; simp at hb
    | ok delay =>
      rw [hdelay] at hb
      simp only at hb ⊢
      cases hsd : goDiv delay cfg.Accounts.length with
      | error p => rw [hsd] at hb; simp at hb
      | ok sd =>
        rw [hsd] at hb
        simp only at hb ⊢
        rcases hloop : launchAll env pool (min cfg.Accounts.length 50) sd delay cfg.Accounts 0
          env.startTime with ⟨ex, evs⟩
        rw [hloop] at hb
        cases ex with
        | completed =>
          simp only [List.mem_map] at hb ⊢
          obtain ⟨l, hl, rfl⟩ := hb
          exact ⟨l, hl, rfl⟩
        | returned err =>
          simp only [List.mem_map] at hb ⊢
          obtain ⟨l, hl, rfl⟩ := hb
          exact ⟨l, hl, rfl⟩
        | panicked p => simp at hb

/-! ## Lemmas on the worker loop -/

/-- On a non-empty account list the selector never panics: it returns the address of an
account of the list and the configured amount. -/
theorem nextTransfer_ok (cfg : LoadBotConfig) (hne : cfg.Accounts ≠ []) (raw : Nat) :
    ∃ a ∈ cfg.Accounts, nextTransfer cfg raw = .ok (a.Address, cfg.Amount) := by
  have hpos : 0 < cfg.Accounts.length := List.length_pos.mpr hne
  have hlt : raw % cfg.Accounts.length < cfg.Accounts.length := Nat.mod_lt _ hpos
  refine ⟨cfg.Accounts[raw % cfg.Accounts.length], List.getElem_mem _, ?_⟩
  unfold nextTransfer randIntn
  rw [if_neg (by omega)]
  simp only [List.getElem?_eq_getElem hlt]

/-- One iteration of `runBot` whose `Send()` fails. -/
theorem runBot_send_error (cfg : LoadBotConfig) (env : BotEnv) (acc : Account) (sl : Int)
    (client : Client) (fuel k : Nat) (now : Int) (r : Nat) (v : Int) (err : GoError)
    (hnt : nextTransfer cfg (env.draw k) = .ok (r, v)) (hs : env.send k = .error err) :
    runBot cfg env acc sl client (fuel + 1) k now =
      (.returned (.errorf "Error sending transaction: " err) (now + env.sendTime k),
        [⟨now, client, acc.Address, r, v, .error err, none⟩]) := by
  rw [runBot]
  simp only [hnt, hs]

/-- One iteration of `runBot` whose pacing wait ends by its timer. -/
theorem runBot_timer (cfg : LoadBotConfig) (env : BotEnv) (acc : Account) (sl : Int)
    (client : Client) (fuel k : Nat) (now : Int) (r : Nat) (v : Int) (tx : Nat) (extra : Nat)
    (hnt : nextTransfer cfg (env.draw k) = .ok (r, v)) (hs : env.send k = .ok tx)
    (hp : env.pace k = .timer extra) :
    runBot cfg env acc sl client (fuel + 1) k now =
      ((runBot cfg env acc sl client fuel (k + 1)
          (if 0 < now + sl - (now + env.sendTime k + env.minedTime k)
            then now + env.sendTime k + env.minedTime k +
              (now + sl - (now + env.sendTime k + env.minedTime k)) + extra
            else now + env.sendTime k + env.minedTime k)).1,
        ⟨now, client, acc.Address, r, v, .ok tx,
          some ⟨now + env.sendTime k + env.minedTime k,
            now + sl - (now + env.sendTime k + env.minedTime k),
            if 0 < now + sl - (now + env.sendTime k + env.minedTime k)
            then now + env.sendTime k + env.minedTime k +
              (now + sl - (now + env.sendTime k + env.minedTime k)) + extra
            else now + env.sendTime k + env.minedTime k⟩⟩ ::
          (runBot cfg env acc sl client fuel (k + 1)
            (if 0 < now + sl - (now + env.sendTime k + env.minedTime k)
              then now + env.sendTime k + env.minedTime k +
                (now + sl - (now + env.sendTime k + env.minedTime k)) + extra
              else now + env.sendTime k + env.minedTime k)).2) := by
  rw [runBot]
  simp only [hnt, hs, hp, waitFor]

/-- One iteration of `runBot` whose pacing wait is ended by the context. -/
theorem runBot_done (cfg : LoadBotConfig) (env : BotEnv) (acc : Account) (sl : Int)
    (client : Client) (fuel k : Nat) (now : Int) (r : Nat) (v : Int) (tx : Nat)
    (err : GoError) (after : Nat)
    (hnt : nextTransfer cfg (env.draw k) = .ok (r, v)) (hs : env.send k = .ok tx)
    (hp : env.pace k = .done err after) :
    runBot cfg env acc sl client (fuel + 1) k now =
      (.returned err (now + env.sendTime k + env.minedTime k + after),
        [⟨now, client, acc.Address, r, v, .ok tx,
          some ⟨now + env.sendTime k + env.minedTime k,
            now + sl - (now + env.sendTime k + env.minedTime k),
            now + env.sendTime k + env.minedTime k + after⟩⟩]) := by
  rw [runBot]
  simp only [hnt, hs, hp, waitFor]

/-- One iteration of `runBot` in which the selector panics. -/
theorem runBot_panic (cfg : LoadBotConfig) (env : BotEnv) (acc : Account) (sl : Int)
    (client : Client) (fuel k : Nat) (now : Int) (p : Panic)
    (hnt : nextTransfer cfg (env.draw k) = .error p) :
    runBot cfg env acc sl client (fuel + 1) k now = (.panicked p, []) := by
  rw [runBot]
  simp only [hnt]

/-- The relation between two consecutive iterations of a worker: the second starts no
earlier than one cycle period after the first, and exactly when the inclusion wait of the
first ended if that was already one cycle period or more after its start. -/
theorem runBot_chain (cfg : LoadBotConfig) (env : BotEnv) (acc : Account) (sl : Int)
    (client : Client) :
    ∀ (fuel k : Nat) (now : Int),
      (∀ it ∈ (runBot cfg env acc sl client fuel k now).2.head?, it.txSentTime = now) ∧
        List.Chain' (fun a b : Iteration =>
          a.txSentTime + sl ≤ b.txSentTime ∧
            ∀ p, a.pacing = some p → a.txSentTime + sl ≤ p.minedAt →
              p.waitTime ≤ 0 ∧ p.wokeAt = p.minedAt ∧ b.txSentTime = p.minedAt)
          (runBot cfg env acc sl client fuel k now).2
  | 0, k, now => by simp [runBot]
  | fuel + 1, k, now => by
    cases hnt : nextTransfer cfg (env.draw k) with
    | error p => rw [runBot_panic cfg env acc sl client fuel k now p hnt]; simp
    | ok rv =>
      obtain ⟨r, v⟩ := rv
      cases hs : env.send k with
      | error err =>
        rw [runBot_send_error cfg env acc sl client fuel k now r v err hnt hs]; simp
      | ok tx =>
        cases hp : env.pace k with
        | done err after =>
          rw [runBot_done cfg env acc sl client fuel k now r v tx err after hnt hs hp]; simp
        | timer extra =>
          rw [runBot_timer cfg env acc sl client fuel k now r v tx extra hnt hs hp]
          obtain ⟨ih1, ih2⟩ := runBot_chain cfg env acc sl client fuel (k + 1)
            (if 0 < now + sl - (now + env.sendTime k + env.minedTime k)
              then now + env.sendTime k + env.minedTime k +
                (now + sl - (now + env.sendTime k + env.minedTime k)) + extra
              else now + env.sendTime k + env.minedTime k)
          refine ⟨by simp, ?_⟩
          rw [List.chain'_cons']
          refine ⟨?_, ih2⟩
          intro b hb
          have hb' := ih1 b hb
          rw [hb']
          simp only [Option.some.injEq]
          constructor
          · split <;> omega
          · intro p hp' hle
            subst hp'
            simp only at hle ⊢
            have : ¬ (0 < now + sl - (now + env.sendTime k + env.minedTime k)) := by omega
            rw [if_neg this]
            exact ⟨by omega, rfl, rfl⟩

/-- Whatever the environment, every iteration of a worker but the last observed one went
through its pacing wait, and the next iteration started when that wait ended, which is when
the inclusion wait ended if the pacing wait asked for no positive duration. -/
theorem runBot_chain_next (cfg : LoadBotConfig) (env : BotEnv) (acc : Account) (sl : Int)
    (client : Client) :
    ∀ (fuel k : Nat) (now : Int),
      (∀ it ∈ (runBot cfg env acc sl client fuel k now).2.head?, it.txSentTime = now) ∧
        List.Chain' (fun a b : Iteration =>
          ∃ p, a.pacing = some p ∧ b.txSentTime = p.wokeAt ∧
            (p.waitTime ≤ 0 → p.wokeAt = p.minedAt))
          (runBot cfg env acc sl client fuel k now).2
  | 0, k, now => by simp [runBot]
  | fuel + 1, k, now => by
    cases hnt : nextTransfer cfg (env.draw k) with
    | error p => rw [runBot_panic cfg env acc sl client fuel k now p hnt]; simp
    | ok rv =>
      obtain ⟨r, v⟩ := rv
      cases hs : env.send k with
      | error err =>
        rw [runBot_send_error cfg env acc sl client fuel k now r v err hnt hs]; simp
      | ok tx =>
        cases hp : env.pace k with
        | done err after =>
          rw [runBot_done cfg env acc sl client fuel k now r v tx err after hnt hs hp]; simp
        | timer extra =>
          rw [runBot_timer cfg env acc sl client fuel k now r v tx extra hnt hs hp]
          obtain ⟨ih1, ih2⟩ := runBot_chain_next cfg env acc sl client fuel (k + 1)
            (if 0 < now + sl - (now + env.sendTime k + env.minedTime k)
              then now + env.sendTime k + env.minedTime k +
                (now + sl - (now + env.sendTime k + env.minedTime k)) + extra
              else now + env.sendTime k + env.minedTime k)
          refine ⟨by simp, ?_⟩
          rw [List.chain'_cons']
          refine ⟨?_, ih2⟩
          intro b hb
          have hb' := ih1 b hb
          refine ⟨_, rfl, hb', ?_⟩
          intro hle
          simp only at hle ⊢
          rw [if_neg (by omega)]

/-- On a non-empty account list a worker never panics. -/
theorem runBot_no_panic (cfg : LoadBotConfig) (env : BotEnv) (acc : Account) (sl : Int)
    (client : Client) (hne : cfg.Accounts ≠ []) :
    ∀ (fuel k : Nat) (now : Int) (p : Panic),
      (runBot cfg env acc sl client fuel k now).1 ≠ .panicked p
  | 0, k, now, p => by simp [runBot]
  | fuel + 1, k, now, p => by
    obtain ⟨a, -, hnt⟩ := nextTransfer_ok cfg hne (env.draw k)
    cases hs : env.send k with
    | error err =>
      rw [runBot_send_error cfg env acc sl client fuel k now _ _ err hnt hs]; simp
    | ok tx =>
      cases hp : env.pace k with
      | done err after =>
        rw [runBot_done cfg env acc sl client fuel k now _ _ tx err after hnt hs hp]; simp
      | timer extra =>
        rw [runBot_timer cfg env acc sl client fuel k now _ _ tx extra hnt hs hp]
        exact runBot_no_panic cfg env acc sl client hne fuel (k + 1) _ p

/-- The pacing wait of every iteration asks for the time left until one cycle period after
the start of the iteration, and the inclusion wait ends no earlier than the iteration
started. -/
theorem runBot_pacing (cfg : LoadBotConfig) (env : BotEnv) (acc : Account) (sl : Int)
    (client : Client) :
    ∀ (fuel k : Nat) (now : Int), ∀ it ∈ (runBot cfg env acc sl client fuel k now).2,
      ∀ p, it.pacing = some p →
        p.waitTime = it.txSentTime + sl - p.minedAt ∧ it.txSentTime ≤ p.minedAt
  | 0, k, now, it, h => by simp [runBot] at h
  | fuel + 1, k, now, it, h => by
    cases hnt : nextTransfer cfg (env.draw k) with
    | error p => rw [runBot_panic cfg env acc sl client fuel k now p hnt] at h; simp at h
    | ok rv =>
      obtain ⟨r, v⟩ := rv
      cases hs : env.send k with
      | error err =>
        rw [runBot_send_error cfg env acc sl client fuel k now r v err hnt hs] at h
        simp only [List.mem_singleton] at h
        subst h
        intro p hp
        cases hp
      | ok tx =>
        cases hp : env.pace k with
        | done err after =>
          rw [runBot_done cfg env acc sl client fuel k now r v tx err after hnt hs hp] at h
          simp only [List.mem_singleton] at h
          subst h
          intro p hp'
          simp only [Option.some.injEq] at hp'
          subst hp'
          exact ⟨rfl, by simp only; omega⟩
        | timer extra =>
          rw [runBot_timer cfg env acc sl client fuel k now r v tx extra hnt hs hp] at h
          simp only [List.mem_cons] at h
          rcases h with h | h
          · subst h
            intro p hp'
            simp only [Option.some.injEq] at hp'
            subst hp'
            exact ⟨rfl, by simp only; omega⟩
          · exact runBot_pacing cfg env acc sl client fuel (k + 1) _ it h

/-- Whatever the environment, iteration `j` of the log of a worker is the `j`-th call of
`Send()`: every iteration calls it exactly once, and no more iterations are made than
observed. -/
theorem runBot_sends (cfg : LoadBotConfig) (env : BotEnv) (acc : Account) (sl : Int)
    (client : Client) :
    ∀ (fuel k : Nat) (now : Int),
      (runBot cfg env acc sl client fuel k now).2.map (fun it => it.tx) =
          (List.range' k (runBot cfg env acc sl client fuel k now).2.length).map env.send ∧
        (runBot cfg env acc sl client fuel k now).2.length ≤ fuel
  | 0, k, now => by simp [runBot]
  | fuel + 1, k, now => by
    cases hnt : nextTransfer cfg (env.draw k) with
    | error p => rw [runBot_panic cfg env acc sl client fuel k now p hnt]; simp
    | ok rv =>
      obtain ⟨r, v⟩ := rv
      cases hs : env.send k with
      | error err =>
        rw [runBot_send_error cfg env acc sl client fuel k now r v err hnt hs]
        simp [hs]
      | ok tx =>
        cases hp : env.pace k with
        | done err after =>
          rw [runBot_done cfg env acc sl client fuel k now r v tx err after hnt hs hp]
          simp [hs]
        | timer extra =>
          rw [runBot_timer cfg env acc sl client fuel k now r v tx extra hnt hs hp]
          obtain ⟨ih1, ih2⟩ := runBot_sends cfg env acc sl client fuel (k + 1)
            (if 0 < now + sl - (now + env.sendTime k + env.minedTime k)
              then now + env.sendTime k + env.minedTime k +
                (now + sl - (now + env.sendTime k + env.minedTime k)) + extra
              else now + env.sendTime k + env.minedTime k)
          refine ⟨?_, by simp only [List.length_cons]; omega⟩
          simp only [List.map_cons, List.length_cons, List.range'_succ, hs]
          rw [ih1]

/-- A worker whose sends all succeed and whose waits are never cancelled is still running
after any number of iterations, having called `Send()` once in each. -/
theorem runBot_steady (cfg : LoadBotConfig) (env : BotEnv) (acc : Account) (sl : Int)
    (client : Client) (hne : cfg.Accounts ≠ [])
    (hsend : ∀ j, ∃ tx, env.send j = .ok tx) (hpace : ∀ j, ∃ extra, env.pace j = .timer extra) :
    ∀ (fuel k : Nat) (now : Int),
      (runBot cfg env acc sl client fuel k now).1 = .running ∧
        (runBot cfg env acc sl client fuel k now).2.map (fun it => it.tx) =
          (List.range' k fuel).map env.send
  | 0, k, now => by simp [runBot]
  | fuel + 1, k, now => by
    obtain ⟨a, -, hnt⟩ := nextTransfer_ok cfg hne (env.draw k)
    obtain ⟨tx, hs⟩ := hsend k
    obtain ⟨extra, hp⟩ := hpace k
    rw [runBot_timer cfg env acc sl client fuel k now _ _ tx extra hnt hs hp]
    obtain ⟨ih1, ih2⟩ := runBot_steady cfg env acc sl client hne hsend hpace fuel (k + 1)
      (if 0 < now + sl - (now + env.sendTime k + env.minedTime k)
        then now + env.sendTime k + env.minedTime k +
          (now + sl - (now + env.sendTime k + env.minedTime k)) + extra
        else now + env.sendTime k + env.minedTime k)
    refine ⟨ih1, ?_⟩
    simp only [List.map_cons, ih2, List.range'_succ, hs]

/-- A worker whose first `m` sends succeed, without a cancelled wait, and whose next send
fails with `e` returns `e` wrapped by `fmt.Errorf`, after `m + 1` calls of `Send()`. -/
theorem runBot_fails (cfg : LoadBotConfig) (env : BotEnv) (acc : Account) (sl : Int)
    (client : Client) (hne : cfg.Accounts ≠ []) (e : GoError) :
    ∀ (m fuel k : Nat) (now : Int), m < fuel →
      (∀ j, j < m → ∃ tx, env.send (k + j) = .ok tx) →
      (∀ j, j < m → ∃ extra, env.pace (k + j) = .timer extra) →
      env.send (k + m) = .error e →
      (∃ t, now ≤ t ∧ (runBot cfg env acc sl client fuel k now).1 =
          .returned (.errorf "Error sending transaction: " e) t) ∧
        (runBot cfg env acc sl client fuel k now).2.map (fun it => it.tx) =
          (List.range' k (m + 1)).map env.send
  | 0, fuel + 1, k, now, _, _, _, hfail => by
    obtain ⟨a, -, hnt⟩ := nextTransfer_ok cfg hne (env.draw k)
    simp only [Nat.add_zero] at hfail
    rw [runBot_send_error cfg env acc sl client fuel k now _ _ e hnt hfail]
    exact ⟨⟨_, by omega, rfl⟩, by simp [hfail]⟩
  | m + 1, fuel + 1, k, now, hm, hsend, hpace, hfail => by
    obtain ⟨a, -, hnt⟩ := nextTransfer_ok cfg hne (env.draw k)
    obtain ⟨tx, hs⟩ := hsend 0 (by omega)
    obtain ⟨extra, hp⟩ := hpace 0 (by omega)
    simp only [Nat.add_zero] at hs hp
    rw [runBot_timer cfg env acc sl client fuel k now _ _ tx extra hnt hs hp]
    obtain ⟨⟨t, ht, ih1⟩, ih2⟩ := runBot_fails cfg env acc sl client hne e m fuel (k + 1)
      (if 0 < now + sl - (now + env.sendTime k + env.minedTime k)
        then now + env.sendTime k + env.minedTime k +
          (now + sl - (now + env.sendTime k + env.minedTime k)) + extra
        else now + env.sendTime k + env.minedTime k) (by omega)
      (fun j hj => by
        obtain ⟨tx', h'⟩ := hsend (j + 1) (by omega)
        exact ⟨tx', by rw [← h']; congr 1; omega⟩)
      (fun j hj => by
        obtain ⟨x', h'⟩ := hpace (j + 1) (by omega)
        exact ⟨x', by rw [← h']; congr 1; omega⟩)
      (by rw [← hfail]; congr 1; omega)
    refine ⟨⟨t, ?_, ih1⟩, ?_⟩
    · refine le_trans ?_ ht
      split <;> omega
    · simp only [List.map_cons, ih2, hs]
      rw [List.range'_succ k (m + 1), List.map_cons, hs]

/-! ## Lemmas on the task group -/

/-- The error kept by the group is that of one of the tasks. -/
theorem firstReturned_mem : ∀ (rs : List BotResult) (e : GoError) (t : Int),
    firstReturned rs = some (e, t) → BotResult.returned e t ∈ rs
  | [], e, t, h => by simp [firstReturned] at h
  | r :: rs, e, t, h => by
    cases r with
    | running =>
      simp only [firstReturned] at h
      exact List.mem_cons_of_mem _ (firstReturned_mem rs e t h)
    | panicked p =>
      simp only [firstReturned] at h
      exact List.mem_cons_of_mem _ (firstReturned_mem rs e t h)
    | returned e1 t1 =>
      cases hrs : firstReturned rs with
      | none =>
        simp only [firstReturned, hrs, Option.some.injEq, Prod.mk.injEq] at h
        obtain ⟨rfl, rfl⟩ := h
        exact List.mem_cons_self _ _
      | some et =>
        obtain ⟨e2, t2⟩ := et
        simp only [firstReturned, hrs] at h
        split at h
        · simp only [Option.some.injEq, Prod.mk.injEq] at h
          obtain ⟨rfl, rfl⟩ := h
          exact List.mem_cons_self _ _
        · simp only [Option.some.injEq, Prod.mk.injEq] at h
          obtain ⟨rfl, rfl⟩ := h
          exact List.mem_cons_of_mem _ (firstReturned_mem rs _ _ hrs)

/-- When task `w` has returned and no other task has returned by then, the group keeps the
error of task `w`. -/
theorem firstReturned_earliest : ∀ (rs : List BotResult) (w : Nat) (e : GoError) (t : Int),
    rs[w]? = some (.returned e t) →
    (∀ j, j ≠ w → ∀ e' t', rs[j]? = some (.returned e' t') → t < t') →
    firstReturned rs = some (e, t)
  | [], w, e, t, hw, _ => by simp at hw
  | r :: rs, 0, e, t, hw, hother => by
    simp only [List.getElem?_cons_zero, Option.some.injEq] at hw
    subst hw
    cases hrs : firstReturned rs with
    | none => simp [firstReturned, hrs]
    | some et =>
      obtain ⟨e2, t2⟩ := et
      have hmem := firstReturned_mem rs e2 t2 hrs
      obtain ⟨j, hj, hget⟩ := List.getElem_of_mem hmem
      have h2 := hother (j + 1) (by omega) e2 t2
        (by rw [List.getElem?_cons_succ, List.getElem?_eq_getElem hj, hget])
      simp only [firstReturned, hrs]
      rw [if_pos (le_of_lt h2)]
  | r :: rs, w + 1, e, t, hw, hother => by
    simp only [List.getElem?_cons_succ] at hw
    have ih := firstReturned_earliest rs w e t hw (fun j hne e' t' hj =>
      hother (j + 1) (by omega) e' t' (by simpa using hj))
    cases r with
    | running => simp only [firstReturned, ih]
    | panicked p => simp only [firstReturned, ih]
    | returned e' t' =>
      have h2 := hother 0 (by omega) e' t' (by simp)
      simp only [firstReturned, ih]
      rw [if_neg (by omega)]

/-- Tasks none of which panics make no panic in the group. -/
theorem firstPanic_none_of : ∀ (rs : List BotResult),
    (∀ r ∈ rs, ∀ p, r ≠ .panicked p) → firstPanic rs = none
  | [], _ => rfl
  | r :: rs, h => by
    have ih := firstPanic_none_of rs (fun r' hr' => h r' (List.mem_cons_of_mem _ hr'))
    cases r with
    | running => simpa [firstPanic] using ih
    | returned e t => simpa [firstPanic] using ih
    | panicked p => exact absurd rfl (h _ (List.mem_cons_self _ _) p)

/-- When task `w` has returned at `t`, no task panics, and every other task was observed
beyond `t` without having returned by then, `group.Wait()` returns the error of task `w`. -/
theorem groupWait_earliest (tasks : List (BotResult × Int)) (w : Nat) (e : GoError) (t : Int)
    (hw : tasks[w]? = some (.returned e t, t))
    (hother : ∀ j x, tasks[j]? = some x → j ≠ w →
      t < x.2 ∧ (∀ p, x.1 ≠ .panicked p) ∧ ∀ e' t', x.1 = .returned e' t' → x.2 = t') :
    groupWait tasks = .returned (some e) := by
  have hw' : (tasks.map Prod.fst)[w]? = some (.returned e t) := by
    rw [List.getElem?_map, hw]; rfl
  have hnp : ∀ r ∈ tasks.map Prod.fst, ∀ p, r ≠ BotResult.panicked p := by
    intro r hr p
    obtain ⟨j, hj, hget⟩ := List.getElem_of_mem hr
    have hj' : j < tasks.length := by simpa using hj
    by_cases hjw : j = w
    · subst hjw
      rw [List.getElem?_eq_getElem hj, hget] at hw'
      injection hw' with hw'
      rw [hw']; simp
    · have hx : tasks[j]? = some tasks[j] := List.getElem?_eq_getElem hj'
      have := (hother j _ hx hjw).2.1 p
      simp only [List.getElem_map] at hget
      rw [← hget]; exact this
  have hfirst : firstReturned (tasks.map Prod.fst) = some (e, t) := by
    apply firstReturned_earliest _ w e t hw'
    intro j hjw e' t' hj
    rw [List.getElem?_map] at hj
    cases hx : tasks[j]? with
    | none => rw [hx] at hj; simp at hj
    | some x =>
      rw [hx] at hj
      simp only [Option.map_some', Option.some.injEq] at hj
      obtain ⟨h1, -, h3⟩ := hother j x hx hjw
      rw [← h3 e' t' hj]; exact h1
  have hall : tasks.all (fun x => decide (t ≤ x.2)) = true := by
    rw [List.all_eq_true]
    intro x hx
    obtain ⟨j, hj, hget⟩ := List.getElem_of_mem hx
    by_cases hjw : j = w
    · subst hjw
      rw [List.getElem?_eq_getElem hj, hget] at hw
      injection hw with hw
      rw [hw]; simp
    · have := (hother j x (by rw [List.getElem?_eq_getElem hj, hget]) hjw).1
      simp only [decide_eq_true_eq]
      omega
  unfold groupWait
  rw [firstPanic_none_of _ hnp]
  simp only [hfirst, hall, if_true]

/-- The outcome and the tasks of a run of `Start` that reaches the launch loop. -/
theorem Start_outcome_of_ok (cfg : LoadBotConfig) (env : StartEnv) (n : Nat)
    (pool : List Client) (delay sd : Int)
    (hd : dialClients cfg.ClientFactory (min cfg.Accounts.length 50) 0 [] = (n, .ok pool))
    (hdelay : computeDelay cfg.Accounts.length cfg.TransactionsPerSecond = .ok delay)
    (hsd : goDiv delay cfg.Accounts.length = .ok sd) :
    ((launchAll env pool (min cfg.Accounts.length 50) sd delay cfg.Accounts 0
          env.startTime).1 = .completed →
        (Start cfg env).bots = (launches (Start cfg env).events).map (runLaunch cfg env) ∧
        (Start cfg env).outcome = groupWait
          ((launches (Start cfg env).events).map (fun l =>
            ((runLaunch cfg env l).1, observedUntil l (runLaunch cfg env l))))) ∧
      (∀ err, (launchAll env pool (min cfg.Accounts.length 50) sd delay cfg.Accounts 0
          env.startTime).1 = .returned err →
        (Start cfg env).outcome = .returned (some err)) := by
  unfold Start
  simp only [clientCount_eq, hd, hdelay, hsd]
  rcases hloop : launchAll env pool (min cfg.Accounts.length 50) sd delay cfg.Accounts 0
    env.startTime with ⟨ex, evs⟩
  cases ex <;> simp

/-- With a pool of `cc > 0` clients the launch loop does not panic. -/
theorem launchAll_no_panic (env : StartEnv) (clients : List Client) (cc : Nat) (sd d : Int)
    (hcc : cc ≠ 0) (hlen : clients.length = cc) :
    ∀ (accs : List Account) (i : Nat) (now : Int) (p : Panic),
      (launchAll env clients cc sd d accs i now).1 ≠ .panicked p
  | [], i, now, p => by simp [launchAll]
  | acc :: rest, i, now, p => by
    have hlt : i % cc < clients.length := by
      rw [hlen]; exact Nat.mod_lt _ (Nat.pos_of_ne_zero hcc)
    cases hst : env.stagger i with
    | done err after =>
      rw [launchAll]
      simp [hcc, List.getElem?_eq_getElem hlt, hst, waitFor]
    | timer extra =>
      rw [launchAll_cons_timer env clients cc sd d acc rest i now _ extra hcc
        (List.getElem?_eq_getElem hlt) hst]
      exact launchAll_no_panic env clients cc sd d hcc hlen rest (i + 1) _ p

/-- A group without a panicking task does not panic. -/
theorem groupWait_no_panic (tasks : List (BotResult × Int))
    (h : ∀ x ∈ tasks, ∀ p, x.1 ≠ .panicked p) (p : Panic) :
    groupWait tasks ≠ .panicked p := by
  have hnp : ∀ r ∈ tasks.map Prod.fst, ∀ q, r ≠ BotResult.panicked q := by
    intro r hr q
    simp only [List.mem_map] at hr
    obtain ⟨x, hx, rfl⟩ := hr
    exact h x hx q
  unfold groupWait
  rw [firstPanic_none_of _ hnp]
  simp only
  split
  · split <;> simp
  · split <;> simp

/-- The pool built by the factory loop has as many clients as calls were asked for. -/
theorem dialClients_length (factory : Nat → Except GoError Client) :
    ∀ (n i : Nat) (cl pool : List Client) (m : Nat),
      dialClients factory n i cl = (m, .ok pool) → pool.length = cl.length + n
  | 0, i, cl, pool, m, h => by
    simp only [dialClients, Prod.mk.injEq, Except.ok.injEq] at h
    rw [← h.2]; rfl
  | n + 1, i, cl, pool, m, h => by
    rw [dialClients] at h
    cases hf : factory i with
    | error err => rw [hf] at h; simp at h
    | ok c =>
      rw [hf] at h
      have := dialClients_length factory n (i + 1) (cl ++ [c]) pool m h
      rw [this]; simp; omega

/-- The tasks of a run of `Start` are the workers launched by the loop, in launch order. -/
theorem Start_bots_map (cfg : LoadBotConfig) (env : StartEnv) :
    (Start cfg env).bots = (launches (Start cfg env).events).map (runLaunch cfg env) := by
  unfold Start
  simp only [clientCount_eq]
  rcases hdial : dialClients cfg.ClientFactory (min cfg.Accounts.length 50) 0 [] with ⟨n, r⟩
  cases r with
  | error err => simp [launches]
  | ok pool =>
    have hlen := dialClients_length cfg.ClientFactory _ 0 [] pool n hdial
    simp only [List.length_nil, Nat.zero_add] at hlen
    simp only
    cases hdelay : computeDelay cfg.Accounts.length cfg.TransactionsPerSecond with
    | error p => simp [launches]
    | ok delay =>
      simp only
      cases hsd : goDiv delay cfg.Accounts.length with
      | error p => simp [launches]
      | ok sd =>
        simp only
        rcases hloop : launchAll env pool (min cfg.Accounts.length 50) sd delay cfg.Accounts 0
          env.startTime with ⟨ex, evs⟩
        cases ex with
        | completed => rfl
        | returned err => rfl
        | panicked p =>
          exfalso
          by_cases hacc : cfg.Accounts = []
          · rw [hacc] at hloop
            simp [launchAll] at hloop
          · have hpos : 0 < cfg.Accounts.length := List.length_pos.mpr hacc
            have := launchAll_no_panic env pool (min cfg.Accounts.length 50) sd delay
              (by omega) hlen cfg.Accounts 0 env.startTime p
            rw [hloop] at this
            exact this rfl

/-- The instant up to which a task that has returned was observed is that of its return. -/
theorem observedUntil_returned (l : Launch) (run : BotResult × List Iteration) (e : GoError)
    (t : Int) (h : run.1 = .returned e t) : observedUntil l run = t := by
  unfold observedUntil
  rw [h]

/-- The pacing constants of `Start` for `1 ≤ N < 2 ^ 32` accounts and a rate `R ≥ 1`: the
delay is `trunc(0.95 * floor(1000 N / R))` milliseconds and the start delay its quotient by
`N`; no operation overflows. -/
theorem pacing_eq (N : Nat) (R : Int) (hN1 : 1 ≤ N) (hN : N < 2 ^ 32) (hR : 1 ≤ R) :
    computeDelay N R = .ok ((N : Int) * 1000 / R * 19 / 20 * 1000000) ∧
      goDiv ((N : Int) * 1000 / R * 19 / 20 * 1000000) N =
        .ok ((N : Int) * 1000 / R * 19 / 20 * 1000000 / N) ∧
      0 ≤ (N : Int) * 1000 / R * 19 / 20 * 1000000 ∧
      0 ≤ (N : Int) * 1000 / R * 19 / 20 * 1000000 / N := by
  have hN' : (N : Int) < 4294967296 := by exact_mod_cast hN
  have hN1' : (1 : Int) ≤ N := by exact_mod_cast hN1
  have hq0 : 0 ≤ (N : Int) * 1000 / R := Int.ediv_nonneg (by omega) (by omega)
  have hqle : (N : Int) * 1000 / R ≤ (N : Int) * 1000 := Int.ediv_le_self _ (by omega)
  generalize hq : (N : Int) * 1000 / R = q at *
  have hd0 : 0 ≤ q * 19 / 20 * 1000000 := by omega
  have hdlt : q * 19 / 20 * 1000000 < 2 ^ 63 := by omega
  generalize hdd : q * 19 / 20 * 1000000 = d at *
  have hs0 : 0 ≤ d / (N : Int) := Int.ediv_nonneg hd0 (by omega)
  have hsle : d / (N : Int) ≤ d := Int.ediv_le_self _ hd0
  refine ⟨?_, ?_, hd0, hs0⟩
  · rw [computeDelay_eq N R hN hR, hq, hdd]
  · unfold goDiv
    rw [if_neg (by omega), Int.tdiv_eq_ediv hd0 (by omega),
      wrap64_of_range _ (by omega) (by omega)]

/-- With a start delay that is not positive every worker is launched at the time the loop
was entered. -/
theorem launchAll_no_spacing (env : StartEnv) (clients : List Client) (cc : Nat) (sd d : Int)
    (hsd : sd ≤ 0) :
    ∀ (accs : List Account) (i : Nat) (now : Int) (l : Launch),
      l ∈ launches (launchAll env clients cc sd d accs i now).2 → l.at_ = now
  | [], i, now, l, h => by simp [launchAll, launches] at h
  | acc :: rest, i, now, l, h => by
    rw [launchAll] at h
    by_cases hcc : cc = 0
    · simp [hcc, launches] at h
    · simp only [hcc, if_false] at h
      cases hcl : clients[i % cc]? with
      | none => simp [hcl, launches] at h
      | some client =>
        simp only [hcl] at h
        cases hst : env.stagger i with
        | done err after =>
          simp [hst, waitFor, launches] at h
        | timer extra =>
          have hno : ¬ (0 < sd) := by omega
          simp only [hst, waitFor, launches, List.mem_cons, if_neg hno] at h
          rcases h with h | h
          · subst h; rfl
          · exact launchAll_no_spacing env clients cc sd d hsd rest (i + 1) now l h

/-- Without accounts the launch loop of `Start` makes no step. -/
theorem Start_no_accounts (cfg : LoadBotConfig) (env : StartEnv) (hacc : cfg.Accounts = []) :
    (Start cfg env).events = [] := by
  have hlen : cfg.Accounts.length = 0 := by rw [hacc]; rfl
  have hd : dialClients cfg.ClientFactory (min cfg.Accounts.length 50) 0 [] = (0, .ok []) := by
    rw [hlen]; rfl
  rcases (Start_after_dial cfg env 0 [] hd).2.2 with ⟨he, -, -⟩ | ⟨delay, sd, -, -, he⟩
  · exact he
  · rw [he, hacc]; rfl

/-- The run of `Start` over 9708812671 accounts at rate 1: the launch loop begins with a
stagger wait of -949999999 ns, and the first worker launched gets a sleep time of
-9223372036259551616 ns. -/
theorem Start_manyConfig_events :
    (Start manyConfig steadyEnv).events.head? = some (.wait (-949999999)) ∧
      (launches (Start manyConfig steadyEnv).events).head?.map (fun l => l.sleepTime) =
        some (-9223372036259551616) := by
  have hlen : manyConfig.Accounts.length = 9708812671 := by
    show (List.replicate 9708812671 _).length = _
    exact List.length_replicate _ _
  obtain ⟨made, hd, -, hmade⟩ := dialClients_ok manyConfig.ClientFactory
    (min manyConfig.Accounts.length 50) 0 [] (fun j _ => ⟨0 + j, rfl⟩)
  simp only [List.nil_append, Nat.zero_add] at hd hmade
  have hdelay : computeDelay manyConfig.Accounts.length manyConfig.TransactionsPerSecond =
      .ok (-9223372036259551616) := by
    rw [hlen]; decide
  have hsd : goDiv (-9223372036259551616) manyConfig.Accounts.length = .ok (-949999999) := by
    rw [hlen]; decide
  obtain ⟨he, -, -⟩ := Start_of_ok manyConfig steadyEnv _ made _ _ hd hdelay hsd
  have hcc : min manyConfig.Accounts.length 50 ≠ 0 := by rw [hlen]; decide
  obtain ⟨c, hc, -⟩ := hmade 0 (by rw [hlen]; decide)
  have hacc : manyConfig.Accounts = ⟨10, 20⟩ :: List.replicate 9708812670 ⟨10, 20⟩ := by
    show List.replicate (9708812670 + 1) _ = _
    exact List.replicate_succ _ _
  have hstep := launchAll_cons_timer steadyEnv made (min manyConfig.Accounts.length 50)
    (-949999999) (-9223372036259551616) ⟨10, 20⟩ (List.replicate 9708812670 ⟨10, 20⟩) 0
    steadyEnv.startTime c 0 hcc (by simpa using hc) rfl
  rw [← hacc] at hstep
  rw [he, hstep]
  exact ⟨rfl, rfl⟩

/-! ## Claims -/


/-- C1: when the `k`-th call of the factory (`1 ≤ k ≤ min(len(accounts), 50)`) is the first
to fail, with error `e`, `Start` returns exactly `e`, the factory has been called exactly
`k` times, no worker is launched and no task runs. -/
theorem Start_factory_failure (cfg : LoadBotConfig) (env : StartEnv) (k : Nat) (e : GoError)
    (hk1 : 1 ≤ k) (hk : k ≤ min cfg.Accounts.length 50)
    (hok : ∀ j, j + 1 < k → ∃ c, cfg.ClientFactory j = .ok c)
    (hfail : cfg.ClientFactory (k - 1) = .error e) :
    (Start cfg env).outcome = .returned (some e) ∧ (Start cfg env).dialed = k ∧
      launches (Start cfg env).events = [] ∧ (Start cfg env).bots = [] := by
  have hd := dialClients_fail cfg.ClientFactory e (k - 1) (min cfg.Accounts.length 50) 0 []
    (by omega) (fun j hj => by simpa using hok j (by omega)) (by simpa using hfail)
  have hk' : 0 + (k - 1) + 1 = k := by omega
  rw [hk'] at hd
  unfold Start
  simp only [clientCount_eq, hd]
  simp [launches]

/-- Witness for C1: five accounts, the third construction fails. -/
theorem Start_factory_failure_witness :
    (Start thirdDialFails steadyEnv).outcome = .returned (some (.plain 7)) ∧
      (Start thirdDialFails steadyEnv).dialed = 3 ∧
      launches (Start thirdDialFails steadyEnv).events = [] ∧
      (Start thirdDialFails steadyEnv).bots = [] :=
  Start_factory_failure thirdDialFails steadyEnv 3 (.plain 7) (by decide) (by decide)
    (fun j hj => by
      have : j = 0 ∨ j = 1 := by omega
      rcases this with h | h <;> subst h <;> exact ⟨_, rfl⟩)
    rfl

/-- C2: for a non-empty account list and a factory that always succeeds, `Start` calls the
factory `min(N, 50)` times and builds a pool of exactly that many clients (never more than
50), slot `j` holding the result of call `j`; every worker it launches, of index `i`, is
bound to slot `i mod min(N, 50)`, a valid index of the pool, and to the account `i`; with a
rate different from zero and no cancelled stagger wait the workers `0 .. N-1` are launched
in account order; with 2 accounts workers 0 and 1 get slots 0 and 1, and with 100 accounts
workers 0 and 50 share slot 0 and its client. -/
theorem Start_pool_binding (cfg : LoadBotConfig) (env : StartEnv) (hne : cfg.Accounts ≠ [])
    (hok : ∀ k, ∃ c, cfg.ClientFactory k = .ok c) :
    (Start cfg env).dialed = min cfg.Accounts.length 50 ∧
      (Start cfg env).clients.length = min cfg.Accounts.length 50 ∧
      (Start cfg env).clients.length ≤ 50 ∧
      (∀ j, j < min cfg.Accounts.length 50 →
        ∃ c, (Start cfg env).clients[j]? = some c ∧ cfg.ClientFactory j = .ok c) ∧
      (∀ l ∈ launches (Start cfg env).events,
        l.slot = l.index % min cfg.Accounts.length 50 ∧
          l.slot < (Start cfg env).clients.length ∧
          (Start cfg env).clients[l.slot]? = some l.client ∧
          cfg.Accounts[l.index]? = some l.acc) ∧
      (cfg.TransactionsPerSecond ≠ 0 → (∀ i, ∃ extra, env.stagger i = .timer extra) →
        (launches (Start cfg env).events).map (fun l => l.index) =
          List.range cfg.Accounts.length) ∧
      (cfg.Accounts.length = 2 → ∀ a ∈ launches (Start cfg env).events,
        ∀ b ∈ launches (Start cfg env).events, a.index = 0 → b.index = 1 →
          a.slot = 0 ∧ b.slot = 1) ∧
      (cfg.Accounts.length = 100 → ∀ a ∈ launches (Start cfg env).events,
        ∀ b ∈ launches (Start cfg env).events, a.index = 0 → b.index = 50 →
          a.slot = 0 ∧ b.slot = 0 ∧ a.client = b.client) := by
  have hpos : 0 < cfg.Accounts.length := List.length_pos.mpr hne
  obtain ⟨made, hd, hlen, hmade⟩ := dialClients_ok cfg.ClientFactory
    (min cfg.Accounts.length 50) 0 [] (fun j _ => hok (0 + j))
  simp only [List.nil_append, Nat.zero_add] at hd hmade
  obtain ⟨h1, h2, h3⟩ := Start_after_dial cfg env _ made hd
  have hbind : ∀ l ∈ launches (Start cfg env).events,
      l.slot = l.index % min cfg.Accounts.length 50 ∧ l.slot < made.length ∧
        made[l.slot]? = some l.client ∧ cfg.Accounts[l.index]? = some l.acc := by
    intro l hl
    rcases h3 with ⟨he, -, -⟩ | ⟨delay, sd, -, -, he⟩
    · rw [he] at hl; simp [launches] at hl
    · rw [he] at hl
      obtain ⟨-, -, q3, q4, q5, -, -, -⟩ :=
        launchAll_launches env made _ sd delay cfg.Accounts 0 env.startTime l hl
      refine ⟨q4, ?_, q5, by simpa using q3⟩
      rw [q4, hlen]
      exact Nat.mod_lt _ (by omega)
  rw [h1, h2]
  refine ⟨rfl, hlen, by omega, hmade, hbind, ?_, ?_, ?_⟩
  · intro hR hst
    obtain ⟨delay, hdelay⟩ := computeDelay_ok_of_ne cfg.Accounts.length _ hR
    have hsd : goDiv delay cfg.Accounts.length = .ok (wrap64 (Int.tdiv delay cfg.Accounts.length)) := by
      unfold goDiv
      rw [if_neg (by exact_mod_cast (by omega : cfg.Accounts.length ≠ 0))]
    obtain ⟨he, -, -⟩ := Start_of_ok cfg env _ made delay _ hd hdelay hsd
    rw [he]
    have hcc : min cfg.Accounts.length 50 ≠ 0 := by omega
    have := (launchAll_complete env made (min cfg.Accounts.length 50)
      (wrap64 (Int.tdiv delay cfg.Accounts.length)) delay hcc hlen hst
      cfg.Accounts 0 env.startTime).2
    rw [this, List.range_eq_range']
  · intro h2acc a ha b hb ha0 hb1
    obtain ⟨p1, -, -, -⟩ := hbind a ha
    obtain ⟨p2, -, -, -⟩ := hbind b hb
    rw [p1, p2, ha0, hb1, h2acc]
    decide
  · intro h100 a ha b hb ha0 hb50
    obtain ⟨p1, -, p3, -⟩ := hbind a ha
    obtain ⟨p2, -, p4, -⟩ := hbind b hb
    have s1 : a.slot = 0 := by rw [p1, ha0, h100]; decide
    have s2 : b.slot = 0 := by rw [p2, hb50, h100]; decide
    rw [s1] at p3
    rw [s2, p3] at p4
    exact ⟨s1, s2, by injection p4⟩

/-- Witness for C2: two accounts, rate 10: a pool of two clients, workers 0 and 1. -/
theorem Start_pool_binding_witness :
    (Start twoConfig steadyEnv).dialed = 2 ∧ (Start twoConfig steadyEnv).clients.length = 2 ∧
      (launches (Start twoConfig steadyEnv).events).map (fun l => l.index) = [0, 1] :=
  ⟨(Start_pool_binding twoConfig steadyEnv (by decide) (fun k => ⟨k, rfl⟩)).1,
    (Start_pool_binding twoConfig steadyEnv (by decide) (fun k => ⟨k, rfl⟩)).2.1,
    (Start_pool_binding twoConfig steadyEnv (by decide) (fun k => ⟨k, rfl⟩)).2.2.2.2.2.1
      (by decide) (fun _ => ⟨0, rfl⟩)⟩

/-- C8: for a non-empty account list, a draw `idx` in `[0, N)` makes the selector return
`(accounts[idx].Address, Amount)`; whatever the random source yields, the amount is the
configured one and the recipient is the address of an account of the list; and every
account of the list is returned for some draw. -/
theorem nextTransfer_spec (cfg : LoadBotConfig) (hne : cfg.Accounts ≠ []) :
    (∀ idx (h : idx < cfg.Accounts.length),
        nextTransfer cfg idx = .ok (cfg.Accounts[idx].Address, cfg.Amount)) ∧
      (∀ raw, ∃ a ∈ cfg.Accounts, nextTransfer cfg raw = .ok (a.Address, cfg.Amount)) ∧
      (∀ a ∈ cfg.Accounts, ∃ idx, idx < cfg.Accounts.length ∧
        nextTransfer cfg idx = .ok (a.Address, cfg.Amount)) := by
  have hpos : 0 < cfg.Accounts.length := List.length_pos.mpr hne
  have h1 : ∀ idx (h : idx < cfg.Accounts.length),
      nextTransfer cfg idx = .ok (cfg.Accounts[idx].Address, cfg.Amount) := by
    intro idx h
    unfold nextTransfer randIntn
    rw [if_neg (by omega)]
    simp only [Nat.mod_eq_of_lt h, List.getElem?_eq_getElem h]
  refine ⟨h1, ?_, ?_⟩
  · intro raw
    have hlt : raw % cfg.Accounts.length < cfg.Accounts.length := Nat.mod_lt _ hpos
    refine ⟨cfg.Accounts[raw % cfg.Accounts.length], List.getElem_mem _, ?_⟩
    unfold nextTransfer randIntn
    rw [if_neg (by omega)]
    simp only [List.getElem?_eq_getElem hlt]
  · intro a ha
    obtain ⟨idx, hidx, hget⟩ := List.getElem_of_mem ha
    exact ⟨idx, hidx, by rw [h1 idx hidx, hget]⟩

/-- Witness for C8: five accounts, amount 42. -/
theorem nextTransfer_spec_witness :
    nextTransfer fiveConfig 3 = .ok (13, 42) ∧
      ∃ idx, idx < 5 ∧ nextTransfer fiveConfig idx = .ok (14, 42) :=
  ⟨(nextTransfer_spec fiveConfig (by decide)).1 3 (by decide),
    (nextTransfer_spec fiveConfig (by decide)).2.2 ⟨14, 24⟩ (by decide)⟩

/-- C10: with an empty account list and a rate different from zero, `Start` never calls
the factory and panics with a division by zero when it computes the start delay
(`delay / 0` with `delay = 0`); it does not return, neither `nil` nor an error. -/
theorem Start_empty_accounts (cfg : LoadBotConfig) (env : StartEnv)
    (hacc : cfg.Accounts = []) (hR : cfg.TransactionsPerSecond ≠ 0) :
    (Start cfg env).outcome = .panicked .divideByZero ∧ (Start cfg env).dialed = 0 ∧
      (Start cfg env).events = [] ∧ (Start cfg env).bots = [] ∧
      computeDelay cfg.Accounts.length cfg.TransactionsPerSecond = .ok 0 ∧
      ∀ err, (Start cfg env).outcome ≠ .returned err := by
  have hw0 : wrap64 0 = 0 := wrap64_of_range 0 (by norm_num) (by norm_num)
  have hlen : cfg.Accounts.length = 0 := by rw [hacc]; rfl
  have hdelay : computeDelay 0 cfg.TransactionsPerSecond = .ok 0 := by
    unfold computeDelay goDiv
    rw [if_neg hR]
    have h1 : wrap64 (((0 : Nat) : Int) * 1000) = 0 := by rw [← hw0]; congr 1
    have h2 : truncFloat (mul095 (float64OfInt 0)) = 0 := by
      have := scale095_natCast 0 (by norm_num)
      simpa using this
    simp only [h1, Int.zero_tdiv, hw0, h2, zero_mul]
  have hsd : goDiv 0 ((0 : Nat) : Int) = .error .divideByZero := rfl
  have hd : dialClients cfg.ClientFactory (min cfg.Accounts.length 50) 0 [] = (0, .ok []) := by
    rw [hlen]; rfl
  unfold Start
  simp only [clientCount_eq, hd]
  simp only [hlen, hdelay, hsd]
  simp

/-- Witness for C10: no account, rate 10. -/
theorem Start_empty_accounts_witness :
    (Start noAccounts steadyEnv).outcome = .panicked .divideByZero ∧
      (Start noAccounts steadyEnv).dialed = 0 :=
  ⟨(Start_empty_accounts noAccounts steadyEnv rfl (by decide)).1,
    (Start_empty_accounts noAccounts steadyEnv rfl (by decide)).2.1⟩

/-- C3 (counterexample): with one account and a rate of 7 the delay `Start` computes and
gives to the worker is 134 ms, while `floor(950 * 1 / 7)` ms is 135 ms. -/
theorem cyclePeriod_not_exact :
    computeDelay 1 7 = .ok 134000000 ∧
      (launches (Start sevenConfig steadyEnv).events).map (fun l => l.sleepTime) =
        [134000000] ∧
      computeDelay sevenConfig.Accounts.length sevenConfig.TransactionsPerSecond ≠
        .ok (950 * (sevenConfig.Accounts.length : Int) / sevenConfig.TransactionsPerSecond *
          Millisecond) := by
  refine ⟨by decide, by decide, by decide⟩

/-- C3 (amended): for `N < 2 ^ 32` accounts and a rate `R ≥ 1` the cycle period `Start`
computes, and hands to every worker it launches, is `floor(19 * floor(1000 N / R) / 20)`
milliseconds: the division by the rate is an integer division done first, then the factor
0.95 is applied and the product truncated. Below `2 ^ 32` accounts no `int64` operation of
the computation overflows and the `float64` product is exact. -/
theorem Start_cyclePeriod (cfg : LoadBotConfig) (env : StartEnv)
    (hN : cfg.Accounts.length < 2 ^ 32) (hR : 1 ≤ cfg.TransactionsPerSecond) :
    computeDelay cfg.Accounts.length cfg.TransactionsPerSecond =
        .ok ((cfg.Accounts.length : Int) * 1000 / cfg.TransactionsPerSecond * 19 / 20 *
          Millisecond) ∧
      ∀ l ∈ launches (Start cfg env).events,
        l.sleepTime = (cfg.Accounts.length : Int) * 1000 / cfg.TransactionsPerSecond * 19 / 20 *
          Millisecond := by
  have hdelay := computeDelay_eq cfg.Accounts.length cfg.TransactionsPerSecond hN hR
  refine ⟨hdelay, ?_⟩
  intro l hl
  by_cases hne : cfg.Accounts.length = 0
  · have hnil : cfg.Accounts = [] := List.length_eq_zero.mp hne
    rw [Start_no_accounts cfg env hnil] at hl
    simp [launches] at hl
  · obtain ⟨-, hsd, -, -⟩ := pacing_eq cfg.Accounts.length cfg.TransactionsPerSecond
      (by omega) hN hR
    rcases Start_events_cases cfg env _ _ hdelay hsd with he | ⟨n, pool, -, he⟩
    · rw [he] at hl; simp [launches] at hl
    · rw [he] at hl
      exact (launchAll_launches env pool _ _ _ cfg.Accounts 0 env.startTime l hl).2.2.2.2.2.1

/-- Witness for C3 (amended): two accounts, rate 10, 190 ms. -/
theorem Start_cyclePeriod_witness :
    computeDelay 2 10 = .ok 190000000 :=
  (Start_cyclePeriod twoConfig steadyEnv (by decide) (by decide)).1

/-- C9 (counterexample): with 9708812671 accounts and a rate of 1 the multiplication by
`time.Millisecond` overflows, and the cycle period the code computes and gives to worker 0,
a negative duration, is not `trunc(0.95 * floor(1000 N / R))` milliseconds; with `2 ^ 61`
accounts and a rate of 1 the product `len * 1000` wraps to zero and the cycle period is
zero although `R > 500 N` does not hold. -/
theorem zero_period_overflow :
    computeDelay 9708812671 1 = .ok (-9223372036259551616) ∧
      (launches (Start manyConfig steadyEnv).events).head?.map (fun l => l.sleepTime) =
        some (-9223372036259551616) ∧
      computeDelay 9708812671 1 ≠ .ok ((9708812671 : Int) * 1000 / 1 * 19 / 20 * Millisecond) ∧
      computeDelay 2305843009213693952 1 = .ok 0 ∧
      ¬ (500 * (2305843009213693952 : Int) < 1) := by
  exact ⟨by decide, Start_manyConfig_events.2, by decide, by decide, by decide⟩

/-- C9 (amended): for `1 ≤ N < 2 ^ 32` accounts and a rate `R ≥ 1`, the cycle period the
code computes, `trunc(0.95 * floor(1000 N / R))` milliseconds, is zero exactly when
`R > 500 N`; then the start delay is zero too, every stagger wait asks for zero, every
worker launched is launched at the time `Start` entered the loop with a sleep time of zero,
and no pacing wait of any worker asks for a positive duration; and when the pool is built
and no stagger wait is cancelled, all `N` workers are launched, each is a task of the run,
each of its iterations starts at the very time the inclusion wait of the one before ended,
and a worker whose sends succeed and whose waits are not cancelled goes through every
iteration observed. -/
theorem Start_zero_period (cfg : LoadBotConfig) (env : StartEnv)
    (hN1 : 1 ≤ cfg.Accounts.length) (hN : cfg.Accounts.length < 2 ^ 32)
    (hR : 1 ≤ cfg.TransactionsPerSecond) :
    computeDelay cfg.Accounts.length cfg.TransactionsPerSecond =
        .ok ((cfg.Accounts.length : Int) * 1000 / cfg.TransactionsPerSecond * 19 / 20 *
          Millisecond) ∧
      ((cfg.Accounts.length : Int) * 1000 / cfg.TransactionsPerSecond * 19 / 20 *
          Millisecond = 0 ↔ 500 * (cfg.Accounts.length : Int) < cfg.TransactionsPerSecond) ∧
      (500 * (cfg.Accounts.length : Int) < cfg.TransactionsPerSecond →
        computeDelay cfg.Accounts.length cfg.TransactionsPerSecond = .ok 0 ∧
        goDiv 0 cfg.Accounts.length = .ok 0 ∧
        (∀ w, StartEvent.wait w ∈ (Start cfg env).events → w = 0) ∧
        (∀ l ∈ launches (Start cfg env).events, l.sleepTime = 0 ∧ l.at_ = env.startTime) ∧
        (∀ b ∈ (Start cfg env).bots, ∀ it ∈ b.2, ∀ p, it.pacing = some p →
          p.waitTime ≤ 0) ∧
        ((∀ k, ∃ c, cfg.ClientFactory k = .ok c) →
          (∀ i, ∃ extra, env.stagger i = .timer extra) →
          (launches (Start cfg env).events).map (fun l => l.index) =
              List.range cfg.Accounts.length ∧
            (Start cfg env).bots.length = cfg.Accounts.length ∧
            ∀ l ∈ launches (Start cfg env).events,
              runLaunch cfg env l ∈ (Start cfg env).bots ∧
              List.Chain' (fun a b : Iteration =>
                  ∃ p, a.pacing = some p ∧ p.waitTime ≤ 0 ∧ p.wokeAt = p.minedAt ∧
                    b.txSentTime = p.minedAt)
                (runLaunch cfg env l).2 ∧
              ((∀ j, ∃ tx, (env.bot l.index).send j = .ok tx) →
                (∀ j, ∃ extra, (env.bot l.index).pace j = .timer extra) →
                (runLaunch cfg env l).1 = .running ∧
                  (runLaunch cfg env l).2.length = env.fuel))) := by
  obtain ⟨hdelay, hsd, -, -⟩ := pacing_eq cfg.Accounts.length cfg.TransactionsPerSecond
    hN1 hN hR
  have hN1' : (1 : Int) ≤ cfg.Accounts.length := by exact_mod_cast hN1
  have hne : cfg.Accounts ≠ [] := List.length_pos.mp (by omega)
  have hq0 : 0 ≤ (cfg.Accounts.length : Int) * 1000 / cfg.TransactionsPerSecond :=
    Int.ediv_nonneg (by omega) (by omega)
  have hq2 : (cfg.Accounts.length : Int) * 1000 / cfg.TransactionsPerSecond < 2 ↔
      (cfg.Accounts.length : Int) * 1000 < 2 * cfg.TransactionsPerSecond :=
    Int.ediv_lt_iff_lt_mul (by omega)
  have hiff : (cfg.Accounts.length : Int) * 1000 / cfg.TransactionsPerSecond * 19 / 20 *
      Millisecond = 0 ↔ 500 * (cfg.Accounts.length : Int) < cfg.TransactionsPerSecond := by
    unfold Millisecond
    generalize (cfg.Accounts.length : Int) * 1000 / cfg.TransactionsPerSecond = q at *
    omega
  refine ⟨hdelay, hiff, ?_⟩
  intro hfast
  have hzero := hiff.mpr hfast
  unfold Millisecond at hzero
  rw [hzero] at hdelay hsd
  have hsd0 : goDiv 0 (cfg.Accounts.length : Int) = .ok 0 := by
    rw [hsd]; simp
  have hev : ∀ l ∈ launches (Start cfg env).events, l.sleepTime = 0 ∧ l.at_ = env.startTime := by
    intro l hl
    rcases Start_events_cases cfg env _ _ hdelay hsd0 with he | ⟨n, pool, -, he⟩
    · rw [he] at hl; simp [launches] at hl
    · rw [he] at hl
      exact ⟨(launchAll_launches env pool _ _ _ cfg.Accounts 0 env.startTime l hl).2.2.2.2.2.1,
        launchAll_no_spacing env pool _ 0 0 le_rfl cfg.Accounts 0 env.startTime l hl⟩
  have hwait : ∀ l ∈ launches (Start cfg env).events, ∀ it ∈ (runLaunch cfg env l).2,
      ∀ p, it.pacing = some p → p.waitTime ≤ 0 := by
    intro l hl it hit p hp
    obtain ⟨h1, h2⟩ := runBot_pacing cfg (env.bot l.index) l.acc l.sleepTime l.client
      env.fuel 0 l.at_ it hit p hp
    rw [h1, (hev l hl).1]
    omega
  refine ⟨hdelay, hsd0, ?_, hev, ?_, ?_⟩
  · intro w hw
    rcases Start_events_cases cfg env _ _ hdelay hsd0 with he | ⟨n, pool, -, he⟩
    · rw [he] at hw; simp at hw
    · rw [he] at hw
      exact launchAll_waits env pool _ 0 0 cfg.Accounts 0 env.startTime w hw
  · intro b hb it hit p hp
    obtain ⟨l, hl, rfl⟩ := Start_bots cfg env b hb
    exact hwait l hl it hit p hp
  · intro hok hst
    obtain ⟨made, hdial, hlen, -⟩ := dialClients_ok cfg.ClientFactory
      (min cfg.Accounts.length 50) 0 [] (fun j _ => hok (0 + j))
    simp only [List.nil_append, Nat.zero_add] at hdial
    have hcc : min cfg.Accounts.length 50 ≠ 0 := by omega
    have hidx : (launches (Start cfg env).events).map (fun l => l.index) =
        List.range cfg.Accounts.length := by
      rw [(Start_of_ok cfg env _ made 0 0 hdial hdelay hsd0).1,
        (launchAll_complete env made (min cfg.Accounts.length 50) 0 0 hcc hlen hst
          cfg.Accounts 0 env.startTime).2, List.range_eq_range']
    refine ⟨hidx, ?_, ?_⟩
    · rw [Start_bots_map, List.length_map]
      have := congrArg List.length hidx
      simpa using this
    · intro l hl
      refine ⟨?_, ?_, ?_⟩
      · rw [Start_bots_map]
        exact List.mem_map_of_mem _ hl
      · have hch : List.Chain' (fun a b : Iteration =>
            ∃ p, a.pacing = some p ∧ b.txSentTime = p.wokeAt ∧
              (p.waitTime ≤ 0 → p.wokeAt = p.minedAt)) (runLaunch cfg env l).2 :=
          (runBot_chain_next cfg (env.bot l.index) l.acc l.sleepTime l.client
            env.fuel 0 l.at_).2
        refine (List.Chain'.iff_mem.mp hch).imp ?_
        rintro a b ⟨ha, -, p, hp, hb, hw0⟩
        have hle := hwait l hl a ha p hp
        exact ⟨p, hp, hle, hw0 hle, by rw [hb, hw0 hle]⟩
      · intro hsend hpace
        obtain ⟨h1, h2⟩ := runBot_steady cfg (env.bot l.index) l.acc l.sleepTime l.client hne
          hsend hpace env.fuel 0 l.at_
        refine ⟨h1, ?_⟩
        have := congrArg List.length h2
        simpa [runLaunch] using this

/-- Witness for C9 (amended): one account, rate 501: the delay and the start delay are
zero, the worker is launched at time 0 and is a task of the run, and its three observed
iterations follow one another without a pause, 3 ns apart. -/
theorem Start_zero_period_witness :
    computeDelay 1 501 = .ok 0 ∧ goDiv 0 1 = .ok 0 ∧
      (launches (Start fastConfig steadyEnv).events).map (fun l => l.index) = [0] ∧
      (Start fastConfig steadyEnv).bots.length = 1 ∧
      (launches (Start fastConfig steadyEnv).events).map (fun l => l.at_) = [0] ∧
      (Start fastConfig steadyEnv).bots.map (fun b => b.2.map (fun it => it.txSentTime)) =
        [[0, 3, 6]] :=
  ⟨((Start_zero_period fastConfig steadyEnv (by decide) (by decide) (by decide)).2.2
      (by decide)).1,
    ((Start_zero_period fastConfig steadyEnv (by decide) (by decide) (by decide)).2.2
      (by decide)).2.1,
    (((Start_zero_period fastConfig steadyEnv (by decide) (by decide) (by decide)).2.2
      (by decide)).2.2.2.2.2 (fun k => ⟨k, rfl⟩) (fun _ => ⟨0, rfl⟩)).1,
    (((Start_zero_period fastConfig steadyEnv (by decide) (by decide) (by decide)).2.2
      (by decide)).2.2.2.2.2 (fun k => ⟨k, rfl⟩) (fun _ => ⟨0, rfl⟩)).2.1,
    by decide, by decide⟩

/-- C6 (counterexample): with 9708812671 accounts and a rate of 1 the multiplication by
`time.Millisecond` overflows: the delay is negative, the start delay is -949999999 ns, that
is what the first stagger wait of `Start` asks for, and `N` start delays are more than the
delay, not at most the delay. -/
theorem stagger_overflow :
    computeDelay 9708812671 1 = .ok (-9223372036259551616) ∧
      goDiv (-9223372036259551616) 9708812671 = .ok (-949999999) ∧
      (Start manyConfig steadyEnv).events.head? = some (.wait (-949999999)) ∧
      ¬ ((9708812671 : Int) * (-949999999) ≤ -9223372036259551616) := by
  exact ⟨by decide, by decide, Start_manyConfig_events.1, by decide⟩

/-- C6 (amended): for `1 ≤ N < 2 ^ 32` accounts and a rate `R ≥ 1`, the start delay is the delay
divided by `N` (integer division of the nanosecond duration); every stagger wait asks for
it; worker `i` is launched after `i + 1` such waits, so no earlier than `(i + 1)` start
delays after the loop was entered and exactly then when the timers fire on time; launch
times and offsets do not decrease in account order; and `N` start delays fill the cycle
period up to less than `N` nanoseconds. Below `2 ^ 32` accounts no `int64` operation of
the computation overflows and the `float64` product is exact. -/
theorem Start_stagger (cfg : LoadBotConfig) (env : StartEnv)
    (hN1 : 1 ≤ cfg.Accounts.length) (hN : cfg.Accounts.length < 2 ^ 32)
    (hR : 1 ≤ cfg.TransactionsPerSecond) :
    ∃ d s, computeDelay cfg.Accounts.length cfg.TransactionsPerSecond = .ok d ∧
      goDiv d cfg.Accounts.length = .ok s ∧ s = d / (cfg.Accounts.length : Int) ∧ 0 ≤ s ∧
      (cfg.Accounts.length : Int) * s ≤ d ∧
      d - (cfg.Accounts.length : Int) * s < cfg.Accounts.length ∧
      (∀ w, StartEvent.wait w ∈ (Start cfg env).events → w = s) ∧
      (∀ l ∈ launches (Start cfg env).events,
        l.sleepTime = d ∧ env.startTime + ((l.index : Int) + 1) * s ≤ l.at_) ∧
      ((∀ i, env.stagger i = .timer 0) → ∀ l ∈ launches (Start cfg env).events,
        l.at_ = env.startTime + ((l.index : Int) + 1) * s) ∧
      (launches (Start cfg env).events).Pairwise (fun a b =>
        a.index < b.index ∧ a.at_ ≤ b.at_ ∧
          ((a.index : Int) + 1) * s ≤ ((b.index : Int) + 1) * s) ∧
      ((∀ k, ∃ c, cfg.ClientFactory k = .ok c) → (∀ i, ∃ extra, env.stagger i = .timer extra) →
        (launches (Start cfg env).events).map (fun l => l.index) =
          List.range cfg.Accounts.length) := by
  obtain ⟨hdelay, hsd, hd0, hs0⟩ := pacing_eq cfg.Accounts.length cfg.TransactionsPerSecond
    hN1 hN hR
  have hN1' : (1 : Int) ≤ cfg.Accounts.length := by exact_mod_cast hN1
  generalize (cfg.Accounts.length : Int) * 1000 / cfg.TransactionsPerSecond * 19 / 20 *
    1000000 = d at *
  have hmod := Int.ediv_add_emod d (cfg.Accounts.length : Int)
  have hm0 := Int.emod_nonneg d (by omega : (cfg.Accounts.length : Int) ≠ 0)
  have hmlt := Int.emod_lt_of_pos d (by omega : (0 : Int) < cfg.Accounts.length)
  refine ⟨d, d / (cfg.Accounts.length : Int), hdelay, hsd, rfl, hs0, by omega, by omega,
    ?_, ?_, ?_, ?_, ?_⟩
  · intro w hw
    rcases Start_events_cases cfg env _ _ hdelay hsd with he | ⟨n, pool, -, he⟩
    · rw [he] at hw; simp at hw
    · rw [he] at hw
      exact launchAll_waits env pool _ _ _ cfg.Accounts 0 env.startTime w hw
  · intro l hl
    rcases Start_events_cases cfg env _ _ hdelay hsd with he | ⟨n, pool, -, he⟩
    · rw [he] at hl; simp [launches] at hl
    · rw [he] at hl
      obtain ⟨-, -, -, -, -, q6, -, q8⟩ :=
        launchAll_launches env pool _ _ _ cfg.Accounts 0 env.startTime l hl
      refine ⟨q6, ?_⟩
      have := q8 hs0
      simpa using this
  · intro hst l hl
    rcases Start_events_cases cfg env _ _ hdelay hsd with he | ⟨n, pool, -, he⟩
    · rw [he] at hl; simp [launches] at hl
    · rw [he] at hl
      have := launchAll_on_time env pool _ _ d hs0 hst cfg.Accounts 0 env.startTime l hl
      simpa using this
  · rcases Start_events_cases cfg env _ _ hdelay hsd with he | ⟨n, pool, -, he⟩
    · rw [he]; simp [launches]
    · rw [he]
      refine (launchAll_sorted env pool _ _ d cfg.Accounts 0 env.startTime).imp ?_
      intro a b hab
      refine ⟨hab.1, hab.2, ?_⟩
      have hlt : (a.index : Int) < b.index := by exact_mod_cast hab.1
      exact mul_le_mul_of_nonneg_right (by omega) hs0
  · intro hok hst
    obtain ⟨made, hdial, hlen, -⟩ := dialClients_ok cfg.ClientFactory
      (min cfg.Accounts.length 50) 0 [] (fun j _ => hok (0 + j))
    simp only [List.nil_append, Nat.zero_add] at hdial
    rw [(Start_of_ok cfg env _ made d _ hdial hdelay hsd).1]
    have hcc : min cfg.Accounts.length 50 ≠ 0 := by omega
    rw [(launchAll_complete env made (min cfg.Accounts.length 50) _ d hcc hlen hst
      cfg.Accounts 0 env.startTime).2, List.range_eq_range']

/-- Witness for C6 (amended): two accounts, rate 10: a delay of 190 ms, 95 ms between
launches, workers 0 and 1 launched in that order at 95 ms and 190 ms. -/
theorem Start_stagger_witness :
    computeDelay 2 10 = .ok 190000000 ∧ goDiv 190000000 2 = .ok 95000000 ∧
      (launches (Start twoConfig steadyEnv).events).map (fun l => l.index) = [0, 1] ∧
      (launches (Start twoConfig steadyEnv).events).map (fun l => l.at_) =
        [95000000, 190000000] := by
  obtain ⟨d, s, h1, h2, h3, -, -, -, -, -, -, -, h11⟩ :=
    Start_stagger twoConfig steadyEnv (by decide) (by decide) (by decide)
  have hd : d = 190000000 := by
    have h : computeDelay twoConfig.Accounts.length twoConfig.TransactionsPerSecond =
        .ok 190000000 := by decide
    rw [h] at h1
    injection h1 with h1
    exact h1.symm
  subst hd
  have hs : s = 95000000 := by rw [h3]; decide
  subst hs
  exact ⟨h1, h2, h11 (fun k => ⟨k, rfl⟩) (fun _ => ⟨0, rfl⟩), by decide⟩

/-- C7: over the explicit clock of `waitFor` (a timer of positive duration fires no earlier
than that duration after it was set, a timer of non-positive duration fires at once), in
every run of a worker each iteration calls `Send()` exactly once, in order; two consecutive
iterations start at least one cycle period apart; when the inclusion wait of an iteration
ends one cycle period or more after the iteration started, the pacing wait asks for no
positive duration, ends at once, and the next iteration starts at that very time; and a
worker whose sends succeed and whose waits are not cancelled is still running after any
number of iterations, having made one send in each. -/
theorem runBot_paced (cfg : LoadBotConfig) (env : BotEnv) (acc : Account) (sleepTime : Int)
    (client : Client) (fuel k : Nat) (now : Int) :
    (runBot cfg env acc sleepTime client fuel k now).2.map (fun it => it.tx) =
        (List.range' k (runBot cfg env acc sleepTime client fuel k now).2.length).map
          env.send ∧
      (runBot cfg env acc sleepTime client fuel k now).2.length ≤ fuel ∧
      List.Chain' (fun a b : Iteration =>
          a.txSentTime + sleepTime ≤ b.txSentTime ∧
            ∀ p, a.pacing = some p → a.txSentTime + sleepTime ≤ p.minedAt →
              p.waitTime ≤ 0 ∧ p.wokeAt = p.minedAt ∧ b.txSentTime = p.minedAt)
        (runBot cfg env acc sleepTime client fuel k now).2 ∧
      (cfg.Accounts ≠ [] → (∀ j, ∃ tx, env.send j = .ok tx) →
        (∀ j, ∃ extra, env.pace j = .timer extra) →
        (runBot cfg env acc sleepTime client fuel k now).1 = .running ∧
          (runBot cfg env acc sleepTime client fuel k now).2.length = fuel) := by
  obtain ⟨h1, h2⟩ := runBot_sends cfg env acc sleepTime client fuel k now
  refine ⟨h1, h2, (runBot_chain cfg env acc sleepTime client fuel k now).2, ?_⟩
  intro hne hsend hpace
  obtain ⟨h3, h4⟩ := runBot_steady cfg env acc sleepTime client hne hsend hpace fuel k now
  refine ⟨h3, ?_⟩
  have := congrArg List.length h4
  simpa using this

/-- Witness for C7: a steady worker over five accounts, three iterations, cycle period 2 ns,
shorter than the 3 ns an iteration takes: the iterations start at 0, 3 and 6 ns. -/
theorem runBot_paced_witness :
    (runBot fiveConfig steadyBot ⟨10, 20⟩ 2 0 3 0 0).1 = .running ∧
      (runBot fiveConfig steadyBot ⟨10, 20⟩ 2 0 3 0 0).2.length = 3 ∧
      (runBot fiveConfig steadyBot ⟨10, 20⟩ 2 0 3 0 0).2.map (fun it => it.txSentTime) =
        [0, 3, 6] :=
  ⟨((runBot_paced fiveConfig steadyBot ⟨10, 20⟩ 2 0 3 0 0).2.2.2 (by decide)
      (fun j => ⟨j, rfl⟩) (fun _ => ⟨0, rfl⟩)).1,
    ((runBot_paced fiveConfig steadyBot ⟨10, 20⟩ 2 0 3 0 0).2.2.2 (by decide)
      (fun j => ⟨j, rfl⟩) (fun _ => ⟨0, rfl⟩)).2,
    by decide⟩

/-- C5 (counterexample): with one account and a rate of -1 the pacing computation does not
divide by zero: the delay is -950 ms, `Start` does not panic and launches the worker. -/
theorem negative_rate_no_panic :
    computeDelay 1 (-1) = .ok (-950000000) ∧
      (Start negativeConfig steadyEnv).outcome = .waiting ∧
      (launches (Start negativeConfig steadyEnv).events).map (fun l => l.index) = [0] := by
  refine ⟨by decide, by decide, by decide⟩

/-- C5 (amended): for a non-empty account list whose clients are all constructed, a rate of
zero makes the pacing computation of `Start` divide by zero, so `Start` panics there, after
the pool is built, without a step of the launch loop and without a task; with a negative
rate there is no division by zero: the delay is computed, `Start` does not panic, and
unless a stagger wait is cancelled it launches every worker. -/
theorem Start_rate_not_positive (cfg : LoadBotConfig) (env : StartEnv)
    (hne : cfg.Accounts ≠ []) (hok : ∀ k, ∃ c, cfg.ClientFactory k = .ok c) :
    (cfg.TransactionsPerSecond = 0 →
        (Start cfg env).outcome = .panicked .divideByZero ∧
        (Start cfg env).dialed = min cfg.Accounts.length 50 ∧
        (Start cfg env).events = [] ∧ (Start cfg env).bots = []) ∧
      (cfg.TransactionsPerSecond < 0 →
        (∃ d, computeDelay cfg.Accounts.length cfg.TransactionsPerSecond = .ok d) ∧
        (∀ p, (Start cfg env).outcome ≠ .panicked p) ∧
        ((∀ i, ∃ extra, env.stagger i = .timer extra) →
          (launches (Start cfg env).events).map (fun l => l.index) =
            List.range cfg.Accounts.length)) := by
  have hpos : 0 < cfg.Accounts.length := List.length_pos.mpr hne
  obtain ⟨made, hd, hlen, -⟩ := dialClients_ok cfg.ClientFactory
    (min cfg.Accounts.length 50) 0 [] (fun j _ => hok (0 + j))
  simp only [List.nil_append, Nat.zero_add] at hd
  have hcc : min cfg.Accounts.length 50 ≠ 0 := by omega
  constructor
  · intro hR
    have hdelay : computeDelay cfg.Accounts.length cfg.TransactionsPerSecond =
        .error .divideByZero := by rw [hR]; exact computeDelay_zero _
    unfold Start
    simp only [clientCount_eq, hd, hdelay]
    simp
  · intro hR
    obtain ⟨delay, hdelay⟩ := computeDelay_ok_of_ne cfg.Accounts.length
      cfg.TransactionsPerSecond (by omega)
    have hsd : goDiv delay cfg.Accounts.length =
        .ok (wrap64 (Int.tdiv delay cfg.Accounts.length)) := by
      unfold goDiv
      rw [if_neg (by exact_mod_cast (by omega : cfg.Accounts.length ≠ 0))]
    obtain ⟨he, -, -⟩ := Start_of_ok cfg env _ made delay _ hd hdelay hsd
    obtain ⟨hc, hr⟩ := Start_outcome_of_ok cfg env _ made delay _ hd hdelay hsd
    refine ⟨⟨delay, hdelay⟩, ?_, ?_⟩
    · intro p
      cases hex : (launchAll env made (min cfg.Accounts.length 50)
          (wrap64 (Int.tdiv delay cfg.Accounts.length)) delay cfg.Accounts 0 env.startTime).1 with
      | completed =>
        rw [(hc hex).2]
        apply groupWait_no_panic
        intro x hx q
        simp only [List.mem_map] at hx
        obtain ⟨l, -, rfl⟩ := hx
        exact runBot_no_panic cfg (env.bot l.index) l.acc l.sleepTime l.client hne env.fuel 0
          l.at_ q
      | returned err => rw [hr err hex]; simp
      | panicked q =>
        exact absurd hex (launchAll_no_panic env made _ _ delay hcc hlen cfg.Accounts 0
          env.startTime q)
    · intro hst
      rw [he, (launchAll_complete env made (min cfg.Accounts.length 50) _ delay hcc hlen hst
        cfg.Accounts 0 env.startTime).2, List.range_eq_range']

/-- Witness for C5 (amended): one account, rate -1. -/
theorem Start_rate_not_positive_witness :
    (∃ d, computeDelay 1 (-1) = .ok d) ∧
      (launches (Start negativeConfig steadyEnv).events).map (fun l => l.index) = [0] :=
  ⟨((Start_rate_not_positive negativeConfig steadyEnv (by decide) (fun k => ⟨k, rfl⟩)).2
      (by decide)).1,
    ((Start_rate_not_positive negativeConfig steadyEnv (by decide) (fun k => ⟨k, rfl⟩)).2
      (by decide)).2.2 (fun _ => ⟨0, rfl⟩)⟩

/-- C4 (counterexample): a worker whose first `Send()` fails with error 9 returns that
error wrapped by `fmt.Errorf`, not the error itself; and when the failure of worker 0 ends
the stagger wait before worker 1, `Start` returns the error of the context, although no
other task has failed. -/
theorem send_error_is_wrapped :
    (runBot twoConfig firstSendFails ⟨10, 20⟩ 190000000 0 1 0 0).1 =
        .returned (.errorf "Error sending transaction: " (.plain 9)) 1 ∧
      (runBot twoConfig firstSendFails ⟨10, 20⟩ 190000000 0 1 0 0).1 ≠
        .returned (.plain 9) 1 ∧
      (Start twoConfig cancelledEnv).bots.map Prod.fst =
        [.returned (.errorf "Error sending transaction: " (.plain 9)) 95000001] ∧
      (Start twoConfig cancelledEnv).outcome = .returned (some (.plain 1)) := by
  refine ⟨by decide, by decide, by decide, by decide⟩

/-- C4 (amended): in a run of `Start`, if the first `k - 1` sends of a launched worker `w`
succeed without a cancelled wait and its `k`-th send returns `e`, then that worker returns
`fmt.Errorf("Error sending transaction: %w", e)`, an error that wraps `e` and is not `e`,
after exactly `k` calls of `Send()`; and when the pool is built, the rate is not zero and no
stagger wait is cancelled, worker `w` is launched and that wrapped error is what `Start`
returns, provided no other task has returned by the instant worker `w` returns. -/
theorem Start_send_failure (cfg : LoadBotConfig) (env : StartEnv) (w k : Nat) (e : GoError)
    (hk : 1 ≤ k) (hfuel : k ≤ env.fuel)
    (hsend : ∀ j, j + 1 < k → ∃ tx, (env.bot w).send j = .ok tx)
    (hpace : ∀ j, j + 1 < k → ∃ extra, (env.bot w).pace j = .timer extra)
    (hfail : (env.bot w).send (k - 1) = .error e) :
    (∀ l ∈ launches (Start cfg env).events, l.index = w →
        runLaunch cfg env l ∈ (Start cfg env).bots ∧
        ∃ t, (runLaunch cfg env l).1 = .returned (.errorf "Error sending transaction: " e) t ∧
          (runLaunch cfg env l).1 ≠ .returned e t ∧
          (runLaunch cfg env l).2.map (fun it => it.tx) =
            (List.range k).map (env.bot w).send) ∧
      ((∀ j, ∃ c, cfg.ClientFactory j = .ok c) → cfg.TransactionsPerSecond ≠ 0 →
        (∀ i, ∃ extra, env.stagger i = .timer extra) → w < cfg.Accounts.length →
        ∃ l t, l ∈ launches (Start cfg env).events ∧ l.index = w ∧
          (runLaunch cfg env l).1 = .returned (.errorf "Error sending transaction: " e) t ∧
          ((∀ l' ∈ launches (Start cfg env).events, l'.index ≠ w →
              t < observedUntil l' (runLaunch cfg env l')) →
            (Start cfg env).outcome =
              .returned (some (.errorf "Error sending transaction: " e)))) := by
  -- the worker
  have hworker : ∀ l ∈ launches (Start cfg env).events, l.index = w →
      ∃ t, (runLaunch cfg env l).1 = .returned (.errorf "Error sending transaction: " e) t ∧
        (runLaunch cfg env l).1 ≠ .returned e t ∧
        (runLaunch cfg env l).2.map (fun it => it.tx) =
          (List.range k).map (env.bot w).send := by
    intro l hl hlw
    have hne : cfg.Accounts ≠ [] := by
      intro hacc
      rw [Start_no_accounts cfg env hacc] at hl
      simp [launches] at hl
    obtain ⟨⟨t, -, hres⟩, hlog⟩ := runBot_fails cfg (env.bot w) l.acc l.sleepTime l.client
      hne e (k - 1) env.fuel 0 l.at_ (by omega)
      (fun j hj => by simpa using hsend j (by omega))
      (fun j hj => by simpa using hpace j (by omega))
      (by simpa using hfail)
    have hrl : runLaunch cfg env l =
        runBot cfg (env.bot w) l.acc l.sleepTime l.client env.fuel 0 l.at_ := by
      unfold runLaunch
      rw [hlw]
    refine ⟨t, by rw [hrl]; exact hres, ?_, ?_⟩
    · rw [hrl, hres]
      intro hcontra
      injection hcontra with h1 _
      have := congrArg sizeOf h1
      simp at this
    · rw [hrl, hlog, List.range_eq_range']
      congr 2
      omega
  refine ⟨?_, ?_⟩
  · intro l hl hlw
    refine ⟨?_, hworker l hl hlw⟩
    rw [Start_bots_map]
    exact List.mem_map_of_mem _ hl
  · intro hok hR hst hw
    have hpos : 0 < cfg.Accounts.length := by omega
    have hne : cfg.Accounts ≠ [] := List.length_pos.mp hpos
    obtain ⟨made, hd, hlen, -⟩ := dialClients_ok cfg.ClientFactory
      (min cfg.Accounts.length 50) 0 [] (fun j _ => hok (0 + j))
    simp only [List.nil_append, Nat.zero_add] at hd
    have hcc : min cfg.Accounts.length 50 ≠ 0 := by omega
    obtain ⟨delay, hdelay⟩ := computeDelay_ok_of_ne cfg.Accounts.length
      cfg.TransactionsPerSecond hR
    have hsd : goDiv delay cfg.Accounts.length =
        .ok (wrap64 (Int.tdiv delay cfg.Accounts.length)) := by
      unfold goDiv
      rw [if_neg (by exact_mod_cast (by omega : cfg.Accounts.length ≠ 0))]
    obtain ⟨he, -, -⟩ := Start_of_ok cfg env _ made delay _ hd hdelay hsd
    obtain ⟨hc, -⟩ := Start_outcome_of_ok cfg env _ made delay _ hd hdelay hsd
    obtain ⟨hex, hidx⟩ := launchAll_complete env made (min cfg.Accounts.length 50)
      (wrap64 (Int.tdiv delay cfg.Accounts.length)) delay hcc hlen hst cfg.Accounts 0
      env.startTime
    obtain ⟨-, hout⟩ := hc hex
    rw [← he] at hidx
    -- the launch at position `j` has index `j`
    have hpos_idx : ∀ (j : Nat) (l' : Launch),
        (launches (Start cfg env).events)[j]? = some l' → l'.index = j := by
      intro j l' hj
      have h1 : ((launches (Start cfg env).events).map (fun l => l.index))[j]? =
          some l'.index := by
        rw [List.getElem?_map, hj]; rfl
      rw [hidx] at h1
      have hjlt : j < cfg.Accounts.length := by
        by_contra hge
        rw [List.getElem?_eq_none (by simp; omega)] at h1
        cases h1
      rw [List.getElem?_range' _ _ hjlt] at h1
      simp only [Option.some.injEq] at h1
      omega
    have hlw : ∃ lw, (launches (Start cfg env).events)[w]? = some lw := by
      have hlen' : (launches (Start cfg env).events).length = cfg.Accounts.length := by
        have := congrArg List.length hidx
        simpa using this
      exact ⟨_, List.getElem?_eq_getElem (by omega)⟩
    obtain ⟨lw, hget⟩ := hlw
    have hlwi := hpos_idx w lw hget
    have hmem : lw ∈ launches (Start cfg env).events := List.getElem?_mem hget
    obtain ⟨t, hres, -, -⟩ := hworker lw hmem hlwi
    refine ⟨lw, t, hmem, hlwi, hres, ?_⟩
    intro hother
    rw [hout]
    apply groupWait_earliest _ w _ t
    · rw [List.getElem?_map, hget]
      simp only [Option.map_some', Option.some.injEq, Prod.mk.injEq]
      exact ⟨hres, observedUntil_returned lw _ _ t hres⟩
    · intro j x hj hjw
      rw [List.getElem?_map] at hj
      cases hlj : (launches (Start cfg env).events)[j]? with
      | none => rw [hlj] at hj; simp at hj
      | some l' =>
        rw [hlj] at hj
        simp only [Option.map_some', Option.some.injEq] at hj
        subst hj
        have hl'i := hpos_idx j l' hlj
        have hl'mem : l' ∈ launches (Start cfg env).events := List.getElem?_mem hlj
        refine ⟨hother l' hl'mem (by omega), ?_, ?_⟩
        · intro p
          exact runBot_no_panic cfg (env.bot l'.index) l'.acc l'.sleepTime l'.client hne
            env.fuel 0 l'.at_ p
        · intro e' t' hret
          exact observedUntil_returned l' _ e' t' hret

/-- Witness for C4 (amended): two accounts, rate 10; worker 0 fails at its fifth send, at
855000001 ns; worker 1 is steady and observed up to 1330000000 ns. -/
theorem Start_send_failure_witness :
    (Start twoConfig failingEnv).bots.map Prod.fst =
        [.returned (.errorf "Error sending transaction: " (.plain 9)) 855000001, .running] ∧
      (Start twoConfig failingEnv).outcome =
        .returned (some (.errorf "Error sending transaction: " (.plain 9))) := by
  have hall : (Start twoConfig failingEnv).bots.map Prod.fst =
      [.returned (.errorf "Error sending transaction: " (.plain 9)) 855000001,
        .running] := by decide
  have hlaunch : launches (Start twoConfig failingEnv).events =
      [⟨0, ⟨10, 20⟩, 0, 0, 190000000, 95000000⟩,
        ⟨1, ⟨11, 21⟩, 1, 1, 190000000, 190000000⟩] := by decide
  refine ⟨hall, ?_⟩
  obtain ⟨l, t, hl, hli, hres, hout⟩ :=
    (Start_send_failure twoConfig failingEnv 0 5 (.plain 9) (by decide) (by decide)
      (fun j hj => ⟨j, by
        show (if j < 4 then Except.ok j else Except.error (GoError.plain 9)) = Except.ok j
        rw [if_pos (by omega)]⟩)
      (fun j _ => ⟨0, rfl⟩) rfl).2
      (fun j => ⟨j, rfl⟩) (by decide) (fun _ => ⟨0, rfl⟩) (by decide)
  apply hout
  rw [hlaunch] at hl ⊢
  have hl0 : l = ⟨0, ⟨10, 20⟩, 0, 0, 190000000, 95000000⟩ := by
    simp only [List.mem_cons, List.mem_singleton, List.not_mem_nil, or_false] at hl
    rcases hl with h | h
    · exact h
    · rw [h] at hli; cases hli
  subst hl0
  have ht : t = 855000001 := by
    have h : (runLaunch twoConfig failingEnv ⟨0, ⟨10, 20⟩, 0, 0, 190000000, 95000000⟩).1 =
        .returned (.errorf "Error sending transaction: " (.plain 9)) 855000001 := by decide
    rw [h] at hres
    injection hres with _ ht
    exact ht.symm
  subst ht
  intro l' hl' hne
  simp only [List.mem_cons, List.mem_singleton, List.not_mem_nil, or_false] at hl'
  rcases hl' with h | h
  · rw [h] at hne; exact absurd rfl hne
  · subst h
    decide

end Loadbot
